import Mathlib

/-!
Verification of the rusty-git core codecs and operations.

Bytes are modeled as `List Nat` (each element a byte value). Rust `String`
values are modeled by their UTF-8 byte lists; `from_utf8` checks are elided
(byte lists subsume valid UTF-8 strings, and all operations used — length,
concatenation, lexicographic comparison — agree with the byte level).
`chrono::DateTime<Utc>` values are modeled by their (timestamp seconds,
subsecond nanoseconds) pair, which is exactly the data the index codec
reads and writes; `Utc.timestamp_opt(s, ns).single()` succeeds for a
`u32` seconds value iff `ns < 2_000_000_000`.
Fallible parsers return `Option`/`Except`; nom's `Err::Error`/`Err::Failure`
outcomes inside a single parser both surface as `none` (the distinction only
matters under `many0`, where the index entry parser exclusively produces
the soft `Error` kind, so repetition always stops gracefully).
-/

namespace RustyGit

/-! ## Byte-level primitives (models of the nom combinators used) -/

/-- Big-endian encoding of a `u32` (`to_be_bytes`); a value `v ≥ 2^32`
encodes as `v % 2^32`, matching Rust's `as u32` casts. -/
def toBE32 (v : Nat) : List Nat :=
  [v / 16777216 % 256, v / 65536 % 256, v / 256 % 256, v % 256]

/-- Big-endian encoding of a `u16` (`to_be_bytes`). -/
def toBE16 (v : Nat) : List Nat :=
  [v / 256 % 256, v % 256]

/-- nom `u32(Big)`: consume four bytes, big-endian. -/
def takeBE32 : List Nat → Option (Nat × List Nat)
  | a :: b :: c :: d :: r => some (((a * 256 + b) * 256 + c) * 256 + d, r)
  | _ => none

/-- nom `u16(Big)`: consume two bytes, big-endian. -/
def takeBE16 : List Nat → Option (Nat × List Nat)
  | a :: b :: r => some (a * 256 + b, r)
  | _ => none

/-- nom `take(n)`: consume exactly `n` bytes. -/
def takeN (n : Nat) (l : List Nat) : Option (List Nat × List Nat) :=
  if n ≤ l.length then some (l.take n, l.drop n) else none

/-- nom `take_while1`-style combinators (`is_not`, `take_till1`, `space1`,
`is_a`): longest prefix satisfying `p`, which must be nonempty. -/
def takeWhile1P (p : Nat → Bool) (l : List Nat) : Option (List Nat × List Nat) :=
  if (l.takeWhile p).isEmpty then none else some (l.takeWhile p, l.dropWhile p)

/-- nom `space0`: longest (possibly empty) prefix satisfying `p`. -/
def takeWhile0P (p : Nat → Bool) (l : List Nat) : List Nat × List Nat :=
  (l.takeWhile p, l.dropWhile p)

/-- nom `tag(t)`: expect the literal byte sequence `t`. -/
def tagP (t : List Nat) (l : List Nat) : Option (List Nat) :=
  if l.take t.length = t then some (l.drop t.length) else none

/-! ## Decimal rendering and parsing (`usize::to_string` / `str::parse::<usize>`) -/

/-- Digit extraction, most significant first; the fuel argument makes the
recursion structural and is irrelevant as long as it is at least `n`. -/
def decReprAux : Nat → Nat → List Nat
  | 0, _ => []
  | fuel+1, n => if n = 0 then [] else decReprAux fuel (n / 10) ++ [n % 10 + 48]

/-- ASCII decimal rendering of a natural number (Rust `to_string`). -/
def decRepr (n : Nat) : List Nat :=
  if n = 0 then [48] else decReprAux n n

theorem decReprAux_eq : ∀ (fuel n : Nat), n ≤ fuel →
    decReprAux fuel n = ((Nat.digits 10 n).map (fun d => d + 48)).reverse := by
  intro fuel
  induction fuel with
  | zero =>
    intro n hn
    have : n = 0 := by omega
    subst this
    simp [decReprAux]
  | succ f ih =>
    intro n hn
    by_cases h0 : n = 0
    · subst h0; simp [decReprAux]
    · unfold decReprAux
      rw [if_neg h0]
      have hdiv : n / 10 ≤ f := by
        have := Nat.div_lt_self (Nat.pos_of_ne_zero h0) (by norm_num : 1 < 10)
        omega
      rw [ih (n / 10) hdiv]
      rw [Nat.digits_def' (by norm_num : 1 < 10) (Nat.pos_of_ne_zero h0)]
      simp

theorem decRepr_eq (n : Nat) :
    decRepr n = if n = 0 then [48] else (Nat.digits 10 n).reverse.map (fun d => d + 48) := by
  unfold decRepr
  by_cases h0 : n = 0
  · simp [h0]
  · rw [if_neg h0, if_neg h0, decReprAux_eq n n (le_refl n), List.map_reverse]

/-- Numeric value of a list of ASCII digit bytes. -/
def decVal (l : List Nat) : Nat :=
  l.foldl (fun a d => a * 10 + (d - 48)) 0

def isDigitB (b : Nat) : Bool := 48 ≤ b && b ≤ 57

/-- Rust `str::parse::<usize>`: an optional leading `+`, then one or more
ASCII digits. (Overflow past `usize::MAX` is not modeled; the inputs the
claims quantify over stay far below it.) -/
def parseUsize (l : List Nat) : Option Nat :=
  let l' := if l.head? = some 43 then l.tail else l
  if l'.isEmpty then none
  else if l'.all isDigitB then some (decVal l') else none

theorem takeN_append (a r : List Nat) : takeN a.length (a ++ r) = some (a, r) := by
  simp [takeN]

theorem takeN_of_length_eq {n : Nat} {a : List Nat} (h : a.length = n) (r : List Nat) :
    takeN n (a ++ r) = some (a, r) := by
  subst h; exact takeN_append a r

theorem takeN_length {n : Nat} {l t r : List Nat} (h : takeN n l = some (t, r)) :
    r.length + n = l.length := by
  unfold takeN at h
  by_cases hn : n ≤ l.length
  · simp [hn] at h
    obtain ⟨h1, h2⟩ := h
    subst h2
    simp
    omega
  · simp [hn] at h

theorem takeBE32_toBE32 (v : Nat) (r : List Nat) :
    takeBE32 (toBE32 v ++ r) = some (v % 4294967296, r) := by
  simp only [toBE32, List.cons_append, List.nil_append, takeBE32]
  congr 1
  congr 1
  omega

theorem takeBE32_toBE32_of_lt {v : Nat} (h : v < 4294967296) (r : List Nat) :
    takeBE32 (toBE32 v ++ r) = some (v, r) := by
  rw [takeBE32_toBE32, Nat.mod_eq_of_lt h]

theorem takeBE16_toBE16 (v : Nat) (r : List Nat) :
    takeBE16 (toBE16 v ++ r) = some (v % 65536, r) := by
  simp only [toBE16, List.cons_append, List.nil_append, takeBE16]
  congr 1
  congr 1
  omega

theorem takeBE16_toBE16_of_lt {v : Nat} (h : v < 65536) (r : List Nat) :
    takeBE16 (toBE16 v ++ r) = some (v, r) := by
  rw [takeBE16_toBE16, Nat.mod_eq_of_lt h]

theorem takeBE32_length {l r : List Nat} {v : Nat} (h : takeBE32 l = some (v, r)) :
    r.length + 4 = l.length := by
  match l with
  | a :: b :: c :: d :: t =>
    simp [takeBE32] at h
    obtain ⟨-, h2⟩ := h
    subst h2
    simp
  | [] => simp [takeBE32] at h
  | [a] => simp [takeBE32] at h
  | [a, b] => simp [takeBE32] at h
  | [a, b, c] => simp [takeBE32] at h

theorem takeBE16_length {l r : List Nat} {v : Nat} (h : takeBE16 l = some (v, r)) :
    r.length + 2 = l.length := by
  match l with
  | a :: b :: t =>
    simp [takeBE16] at h
    obtain ⟨-, h2⟩ := h
    subst h2
    simp
  | [] => simp [takeBE16] at h
  | [a] => simp [takeBE16] at h

/-- The suffix `s` would stop a `takeWhile`: it is empty or starts with a
byte refuting `p`. -/
def stopsAt (p : Nat → Bool) (s : List Nat) : Prop :=
  match s with
  | [] => True
  | b :: _ => p b = false

theorem takeWhile_append_stop {p : Nat → Bool} {a s : List Nat}
    (ha : ∀ x ∈ a, p x = true) (hs : stopsAt p s) :
    (a ++ s).takeWhile p = a ∧ (a ++ s).dropWhile p = s := by
  induction a with
  | nil =>
    match s with
    | [] => simp
    | b :: t =>
      simp only [stopsAt] at hs
      simp [List.takeWhile, List.dropWhile, hs]
  | cons x xs ih =>
    have hx : p x = true := ha x (by simp)
    have ih' := ih (fun y hy => ha y (by simp [hy]))
    simp [List.takeWhile, List.dropWhile, hx, ih'.1, ih'.2]

theorem takeWhile1P_append_stop {p : Nat → Bool} {a s : List Nat}
    (ha : ∀ x ∈ a, p x = true) (hne : a ≠ []) (hs : stopsAt p s) :
    takeWhile1P p (a ++ s) = some (a, s) := by
  obtain ⟨h1, h2⟩ := takeWhile_append_stop ha hs
  simp [takeWhile1P, h1, h2, hne]

theorem takeWhile1P_none {p : Nat → Bool} {l : List Nat}
    (h : stopsAt p l) : takeWhile1P p l = none := by
  match l with
  | [] => simp [takeWhile1P]
  | b :: t =>
    simp only [stopsAt] at h
    simp [takeWhile1P, List.takeWhile, h]

theorem takeWhile1P_length {p : Nat → Bool} {l t r : List Nat}
    (h : takeWhile1P p l = some (t, r)) : r.length < l.length ∧ 1 ≤ t.length := by
  unfold takeWhile1P at h
  by_cases he : (l.takeWhile p).isEmpty
  · simp [he] at h
  · simp only [he, if_false, Option.some_inj, Prod.mk.injEq] at h
    obtain ⟨rfl, rfl⟩ := h
    have hlen : (l.takeWhile p).length + (l.dropWhile p).length = l.length := by
      rw [← List.length_append, List.takeWhile_append_dropWhile]
    have hpos : 0 < (l.takeWhile p).length := by
      cases hx : l.takeWhile p with
      | nil => rw [hx] at he; simp at he
      | cons y ys => simp [hx]
    omega

theorem tagP_append (t r : List Nat) : tagP t (t ++ r) = some r := by
  simp [tagP]

theorem tagP_length {t l r : List Nat} (h : tagP t l = some r) :
    r.length + t.length = l.length := by
  unfold tagP at h
  by_cases hc : l.take t.length = t
  · simp [hc] at h
    subst h
    have : t.length ≤ l.length := by
      conv_rhs => rw [← List.take_append_drop t.length l]
      rw [hc]
      simp
    simp
    omega
  · simp [hc] at h

theorem decVal_decRepr (n : Nat) : decVal (decRepr n) = n := by
  rw [decRepr_eq]
  by_cases h0 : n = 0
  · subst h0; simp [decVal]
  · unfold decVal
    simp only [h0, if_false]
    rw [List.foldl_map, List.foldl_reverse]
    simp only [Nat.add_sub_cancel]
    have hfold : ∀ L : List Nat,
        L.foldr (fun x y => y * 10 + x) 0 = Nat.ofDigits 10 L := by
      intro L
      induction L with
      | nil => simp [Nat.ofDigits_nil]
      | cons d t ih =>
        rw [List.foldr_cons, ih, Nat.ofDigits_cons]
        omega
    rw [hfold, Nat.ofDigits_digits]

theorem decRepr_digits (n : Nat) : ∀ b ∈ decRepr n, 48 ≤ b ∧ b ≤ 57 := by
  intro b hb
  rw [decRepr_eq] at hb
  by_cases h0 : n = 0
  · subst h0; simp at hb; omega
  · simp only [h0, if_false, List.mem_map, List.mem_reverse] at hb
    obtain ⟨d, hd, hb⟩ := hb
    have : d < 10 := Nat.digits_lt_base (by norm_num) hd
    omega

theorem decRepr_ne_nil (n : Nat) : decRepr n ≠ [] := by
  rw [decRepr_eq]
  by_cases h0 : n = 0
  · simp [h0]
  · simp only [h0, if_false]
    intro hc
    have hne : Nat.digits 10 n ≠ [] := Nat.digits_ne_nil_iff_ne_zero.mpr h0
    apply hne
    simpa using hc

theorem parseUsize_decRepr (n : Nat) : parseUsize (decRepr n) = some n := by
  have hd := decRepr_digits n
  have hne := decRepr_ne_nil n
  have hhead : ¬((decRepr n).head? = some 43) := by
    cases hx : decRepr n with
    | nil => simp
    | cons b t =>
      have hb := hd b (by rw [hx]; simp)
      simp
      omega
  unfold parseUsize
  have hall : (decRepr n).all isDigitB = true := by
    rw [List.all_eq_true]
    intro b hb
    have := hd b hb
    simp [isDigitB]
    omega
  simp [hhead, hne, hall, decVal_decRepr]

/-! ## Repetition (nom `many0` / `many1`)

`many0` repeats a parser until it fails, `many1` requires at least one hit.
The fuel argument is a technical device for structural recursion; with fuel
above the input length it coincides with unbounded repetition because every
successful parse here consumes at least one byte. -/

def iterP {α : Type} (p : List Nat → Option (α × List Nat)) :
    Nat → List Nat → List α × List Nat
  | 0, l => ([], l)
  | fuel+1, l =>
    match p l with
    | none => ([], l)
    | some (a, r) =>
      let step := iterP p fuel r
      (a :: step.1, step.2)

def many0P {α : Type} (p : List Nat → Option (α × List Nat)) (l : List Nat) :
    List α × List Nat :=
  iterP p (l.length + 1) l

def many1P {α : Type} (p : List Nat → Option (α × List Nat)) (l : List Nat) :
    Option (List α × List Nat) :=
  match p l with
  | none => none
  | some (a, r) =>
    let step := many0P p r
    some (a :: step.1, step.2)

/-- The parser consumes at least one byte whenever it succeeds. -/
def Consuming {α : Type} (p : List Nat → Option (α × List Nat)) : Prop :=
  ∀ l a r, p l = some (a, r) → r.length < l.length

theorem iterP_fuel_irrel {α : Type} {p : List Nat → Option (α × List Nat)}
    (hp : Consuming p) :
    ∀ f₁ f₂ l, l.length < f₁ → l.length < f₂ → iterP p f₁ l = iterP p f₂ l := by
  intro f₁
  induction f₁ with
  | zero => intro f₂ l h1; omega
  | succ a ih =>
    intro f₂ l h1 h2
    match f₂, h2 with
    | b + 1, h2 =>
      simp only [iterP]
      cases hpl : p l with
      | none => rfl
      | some ar =>
        obtain ⟨x, r⟩ := ar
        have hr := hp l x r hpl
        dsimp only
        rw [ih b r (by omega) (by omega)]

theorem many0P_unfold {α : Type} {p : List Nat → Option (α × List Nat)}
    (hp : Consuming p) (l : List Nat) :
    many0P p l =
      match p l with
      | none => ([], l)
      | some (a, r) =>
        let step := many0P p r
        (a :: step.1, step.2) := by
  unfold many0P
  conv_lhs => rw [iterP]
  cases hpl : p l with
  | none => rfl
  | some ar =>
    obtain ⟨x, r⟩ := ar
    have hr := hp l x r hpl
    dsimp only
    rw [iterP_fuel_irrel hp (l.length) (r.length + 1) r (by omega) (by omega)]

theorem many0P_stop {α : Type} {p : List Nat → Option (α × List Nat)}
    (hp : Consuming p) {l : List Nat} (h : p l = none) :
    many0P p l = ([], l) := by
  rw [many0P_unfold hp, h]

/-- Parsing a concatenation of encoded chunks followed by a dead suffix
yields exactly the chunk values and the suffix. -/
theorem many0P_chunks {α : Type} {p : List Nat → Option (α × List Nat)}
    (hp : Consuming p) (enc : α → List Nat) :
    ∀ (items : List α) (s : List Nat),
      (∀ x ∈ items, ∀ rest, p (enc x ++ rest) = some (x, rest)) →
      p s = none →
      many0P p ((items.map enc).flatten ++ s) = (items, s) := by
  intro items
  induction items with
  | nil =>
    intro s _ hs
    simp only [List.map_nil, List.flatten_nil, List.nil_append]
    exact many0P_stop hp hs
  | cons x xs ih =>
    intro s hchunk hs
    have hx := hchunk x (by simp) (((xs.map enc).flatten) ++ s)
    rw [many0P_unfold hp]
    simp only [List.map_cons, List.flatten_cons, List.append_assoc]
    rw [hx]
    dsimp only
    rw [ih s (fun y hy rest => hchunk y (by simp [hy]) rest) hs]

theorem many1P_chunks {α : Type} {p : List Nat → Option (α × List Nat)}
    (hp : Consuming p) (enc : α → List Nat)
    (x : α) (xs : List α) (s : List Nat)
    (hchunk : ∀ y ∈ x :: xs, ∀ rest, p (enc y ++ rest) = some (y, rest))
    (hs : p s = none) :
    many1P p (((x :: xs).map enc).flatten ++ s) = some (x :: xs, s) := by
  unfold many1P
  simp only [List.map_cons, List.flatten_cons, List.append_assoc]
  rw [hchunk x (by simp) ((xs.map enc).flatten ++ s)]
  dsimp only
  rw [many0P_chunks hp enc xs s (fun y hy rest => hchunk y (by simp [hy]) rest) hs]

/-! ## Error type (src/error.rs, the variants the modeled code produces) -/

inductive GitError
  | nomError
  | malformedObject
  | unrecognizedIndexVersion (v : Nat)
  | noCommitsExistYet
  | ioError
  | rustyGitAllowedFileMissing
  | unexpectedInternalType
  deriving DecidableEq, Repr

/-! ## Object codec (src/objects/mod.rs, blob.rs, tree.rs, commit.rs) -/

def blobTag : List Nat := [98, 108, 111, 98]
def treeTag : List Nat := [116, 114, 101, 101]
def commitTag : List Nat := [99, 111, 109, 109, 105, 116]

structure Blob where
  contents : List Nat
  len : Nat
  deriving DecidableEq, Repr

/-- `Blob::new` (src/objects/blob.rs). -/
def Blob.new (contents : List Nat) : Blob :=
  { len := contents.length, contents := contents }

/-- `impl AsBytes for Blob` (src/objects/blob.rs). -/
def Blob.as_bytes (b : Blob) : List Nat :=
  blobTag ++ [32] ++ decRepr b.len ++ [0] ++ b.contents

structure TreeLeaf where
  mode : List Nat
  path : List Nat
  sha : List Nat
  deriving DecidableEq, Repr

/-- `impl AsBytes for TreeLeaf` (src/objects/tree.rs). -/
def TreeLeaf.as_bytes (lf : TreeLeaf) : List Nat :=
  lf.mode ++ [32] ++ lf.path ++ [0] ++ lf.sha

structure Tree where
  contents : List TreeLeaf
  deriving DecidableEq, Repr

/-- Tree body: concatenation of the leaves (src/objects/tree.rs,
`Tree::as_bytes` before the envelope is prepended). -/
def treeBody (t : Tree) : List Nat :=
  (t.contents.map TreeLeaf.as_bytes).flatten

/-- `impl AsBytes for Tree` (src/objects/tree.rs). -/
def Tree.as_bytes (t : Tree) : List Nat :=
  treeTag ++ [32] ++ decRepr (treeBody t).length ++ [0] ++ treeBody t

/-- `parse_git_tree_leaf` (src/objects/tree.rs): `is_not " "`, `space1`,
`take_till1 (== NUL)`, `tag NUL`, `take(20)`. -/
def parse_git_tree_leaf (input : List Nat) : Option (TreeLeaf × List Nat) :=
  Option.bind (takeWhile1P (fun b => b != 32) input) fun (mode, input) =>
  Option.bind (takeWhile1P (fun b => b == 32 || b == 9) input) fun (_, input) =>
  Option.bind (takeWhile1P (fun b => b != 0) input) fun (path, input) =>
  Option.bind (tagP [0] input) fun input =>
  Option.bind (takeN 20 input) fun (bsha, input) =>
  some ({ mode := mode, path := path, sha := bsha }, input)

/-- `parse_git_tree` (src/objects/tree.rs): `many1` leaves; leftover input
after the last parseable leaf is discarded (`let (_, leaves) = ...`). -/
def parse_git_tree (input : List Nat) : Except GitError Tree :=
  match many1P parse_git_tree_leaf input with
  | none => .error .nomError
  | some (leaves, _) => .ok { contents := leaves }

/-- Commit headers: `kvs` models the `HashMap<Vec<u8>, Vec<u8>>` as an
association list with insert-overwrite semantics, `kvs_order` the recorded
insertion order (src/objects/commit.rs `Commit`). -/
structure Commit where
  kvs : List (List Nat × List Nat)
  kvs_order : List (List Nat)
  msg : List Nat
  sha : List Nat
  deriving DecidableEq, Repr

/-- `HashMap::insert`: overwrite the value if the key exists, else add. -/
def hmInsert (m : List (List Nat × List Nat)) (k v : List Nat) :
    List (List Nat × List Nat) :=
  match m with
  | [] => [(k, v)]
  | (k', v') :: t => if k' = k then (k', v) :: t else (k', v') :: hmInsert t k v

/-- `HashMap::get_key_value`. -/
def hmGet (m : List (List Nat × List Nat)) (k : List Nat) :
    Option (List Nat × List Nat) :=
  m.find? (fun q => decide (q.1 = k))

/-- `parse_kv_pair` (src/objects/commit.rs): `is_not " \t\r\n"`, `space1`,
`take_till1 (== LF)`, `take(1)`. -/
def parse_kv_pair (input : List Nat) : Option ((List Nat × List Nat) × List Nat) :=
  Option.bind (takeWhile1P (fun b => !(b == 32 || b == 9 || b == 13 || b == 10)) input) fun (key, input) =>
  Option.bind (takeWhile1P (fun b => b == 32 || b == 9) input) fun (_, input) =>
  Option.bind (takeWhile1P (fun b => b != 10) input) fun (val, input) =>
  Option.bind (takeN 1 input) fun (_, input) =>
  some ((key, val), input)

/-- The fold in `parse_kv_pairs` building insertion order and map. -/
def buildKvs (pairs : List (List Nat × List Nat)) :
    List (List Nat) × List (List Nat × List Nat) :=
  pairs.foldl (fun acc kv => (acc.1 ++ [kv.1], hmInsert acc.2 kv.1 kv.2)) ([], [])

/-- `parse_kv_pairs` (src/objects/commit.rs). -/
def parse_kv_pairs (input : List Nat) :
    Option ((List (List Nat) × List (List Nat × List Nat)) × List Nat) :=
  match many1P parse_kv_pair input with
  | none => none
  | some (pairs, rest) => some (buildKvs pairs, rest)

/-- `parse_seperator_line` (src/objects/commit.rs): `space0`, then
`take_while1 is_newline`. -/
def parse_seperator_line (input : List Nat) : Option (List Nat × List Nat) :=
  Option.bind (takeWhile1P (fun b => b == 10) (takeWhile0P (fun b => b == 32 || b == 9) input).2)
    fun (nl, input2) => some (nl, input2)

/-- `parse_kv_list_msg` (src/objects/commit.rs): header pairs, separator
line, then the message is the whole remaining input. -/
def parse_kv_list_msg (input sha : List Nat) : Except GitError Commit :=
  match parse_kv_pairs input with
  | none => .error .nomError
  | some ((kvs_order, kvs), rest) =>
    match parse_seperator_line rest with
    | none => .error .nomError
    | some (_, msg) => .ok { kvs := kvs, kvs_order := kvs_order, msg := msg, sha := sha }

/-- `commit_body_as_bytes` (src/objects/commit.rs): each ordered key whose
lookup succeeds contributes `key SP value LF`; then one LF; then the
message. -/
def commit_body_as_bytes (c : Commit) : List Nat :=
  (c.kvs_order.map (fun elm =>
    match hmGet c.kvs elm with
    | some (k, v) => k ++ [32] ++ v ++ [10]
    | none => [])).flatten ++ [10] ++ c.msg

/-- `impl AsBytes for Commit` (src/objects/commit.rs). -/
def Commit.as_bytes (c : Commit) : List Nat :=
  commitTag ++ [32] ++ decRepr (commit_body_as_bytes c).length ++ [0] ++
    commit_body_as_bytes c

inductive GitObj
  | blob (b : Blob)
  | tree (t : Tree)
  | commit (c : Commit)
  deriving DecidableEq, Repr

/-- The `match obj` dispatch target of `write_object` (src/objects/mod.rs). -/
def gitObjAsBytes : GitObj → List Nat
  | .blob b => b.as_bytes
  | .tree t => t.as_bytes
  | .commit c => c.as_bytes

/-- `alt((tag("blob"), tag("commit"), tag("tree")))` (src/objects/mod.rs). -/
def altObjTag (input : List Nat) : Option (List Nat × List Nat) :=
  match tagP blobTag input with
  | some r => some (blobTag, r)
  | none =>
    match tagP commitTag input with
    | some r => some (commitTag, r)
    | none =>
      match tagP treeTag input with
      | some r => some (treeTag, r)
      | none => none

/-- `parse_obj_len` (src/objects/mod.rs and src/object_parsers.rs):
`space1`, `take_till1 (== NUL)`, `tag NUL`, `str::parse::<usize>`. -/
def parse_obj_len (input : List Nat) : Option (Nat × List Nat) :=
  Option.bind (takeWhile1P (fun b => b == 32 || b == 9) input) fun (_, input) =>
  Option.bind (takeWhile1P (fun b => b != 0) input) fun (size, input) =>
  Option.bind (tagP [0] input) fun input =>
  match parseUsize size with
  | some n => some (n, input)
  | none => none

/-- `parse_git_obj` (src/objects/mod.rs): type word, declared length,
`len == contents.len()` check (mismatch is `GitMalformedObject`), then
dispatch on the type word. -/
def parse_git_obj (input sha : List Nat) : Except GitError GitObj :=
  match altObjTag input with
  | none => .error .nomError
  | some (obj, input) =>
    match parse_obj_len input with
    | none => .error .nomError
    | some (len, contents) =>
      if len ≠ contents.length then .error .malformedObject
      else if obj = blobTag then .ok (.blob (Blob.new contents))
      else if obj = treeTag then (parse_git_tree contents).map .tree
      else (parse_kv_list_msg contents sha).map .commit

/-! ## Legacy object parser (src/object_parsers.rs `parse_git_obj`):
same envelope grammar but no declared-length check. -/

inductive GitObjTyp
  | blob
  | commit
  | tree
  deriving DecidableEq, Repr

/-- `parse_obj_type` (src/object_parsers.rs). -/
def parse_obj_type (input : List Nat) : Option (GitObjTyp × List Nat) :=
  match tagP blobTag input with
  | some r => some (.blob, r)
  | none =>
    match tagP commitTag input with
    | some r => some (.commit, r)
    | none =>
      match tagP treeTag input with
      | some r => some (.tree, r)
      | none => none

/-- `GitObject` (src/objects.rs old generation, as used by
src/object_parsers.rs); `source` is the originating path. -/
structure GitObject where
  obj : GitObjTyp
  len : Nat
  contents : List Nat
  source : List Nat
  sha : List Nat
  deriving DecidableEq, Repr

/-- `parse_git_obj` (src/object_parsers.rs): type word and declared length
are read, the remaining input becomes `contents`, and the declared length
is stored without being compared to `contents.len()`. -/
def parse_git_obj_legacy (input path sha : List Nat) : Except GitError GitObject :=
  match parse_obj_type input with
  | none => .error .nomError
  | some (obj, input) =>
    match parse_obj_len input with
    | none => .error .nomError
    | some (len, contents) =>
      .ok { obj := obj, len := len, contents := contents, source := path, sha := sha }

/-! ## Index codec (src/index.rs, new generation: `Index` has no extension
field) -/

/-- `IndexEntry` (src/index.rs). The two `DateTime<Utc>` fields are
embedded as (timestamp seconds, subsecond nanoseconds) pairs, exactly the
data `as_bytes`/`parse_git_index_entry` exchange with the wire format. -/
structure IndexEntry where
  c_time_s : Nat
  c_time_ns : Nat
  m_time_s : Nat
  m_time_ns : Nat
  dev : Nat
  inode : Nat
  mode : Nat
  uid : Nat
  gid : Nat
  size : Nat
  sha : List Nat
  name : List Nat
  deriving DecidableEq, Repr

/-- Padding length from the name length: `name_size = len as u16`,
`entry_length = 62 + name_size` (u16 wrapping), `8 - entry_length % 8`
(src/index.rs `IndexEntry::as_bytes` and `parse_git_index_entry`). -/
def indexPadLen (n : Nat) : Nat :=
  8 - (62 + n % 65536) % 65536 % 8

/-- `impl AsBytes for IndexEntry` (src/index.rs): ten big-endian u32
fields, 20-byte sha, u16 name length, name, NUL padding. -/
def IndexEntry.as_bytes (e : IndexEntry) : List Nat :=
  toBE32 e.c_time_s ++ toBE32 e.c_time_ns ++ toBE32 e.m_time_s ++ toBE32 e.m_time_ns ++
    toBE32 e.dev ++ toBE32 e.inode ++ toBE32 e.mode ++ toBE32 e.uid ++
    toBE32 e.gid ++ toBE32 e.size ++ e.sha ++ toBE16 e.name.length ++
    e.name ++ List.replicate (indexPadLen e.name.length) 0

/-- `parse_git_index_entry` (src/index.rs). The
`Utc.timestamp_opt(secs, nanos).single()` validation succeeds for a u32
seconds value iff `nanos < 2_000_000_000`; its failure is the soft
`nom_many0_err`, modeled as `none`. -/
def parse_git_index_entry (input : List Nat) : Option (IndexEntry × List Nat) :=
  Option.bind (takeBE32 input) fun (c_time, input) =>
  Option.bind (takeBE32 input) fun (c_time_nano, input) =>
  if 2000000000 ≤ c_time_nano then none
  else
  Option.bind (takeBE32 input) fun (m_time, input) =>
  Option.bind (takeBE32 input) fun (m_time_nano, input) =>
  if 2000000000 ≤ m_time_nano then none
  else
  Option.bind (takeBE32 input) fun (dev, input) =>
  Option.bind (takeBE32 input) fun (inode, input) =>
  Option.bind (takeBE32 input) fun (mode, input) =>
  Option.bind (takeBE32 input) fun (uid, input) =>
  Option.bind (takeBE32 input) fun (gid, input) =>
  Option.bind (takeBE32 input) fun (size, input) =>
  Option.bind (takeN 20 input) fun (bsha, input) =>
  Option.bind (takeBE16 input) fun (name_size, input) =>
  Option.bind (takeN name_size input) fun (name, input) =>
  Option.bind (takeN (indexPadLen name_size) input) fun (_null_bytes, input) =>
  some ({ c_time_s := c_time, c_time_ns := c_time_nano,
          m_time_s := m_time, m_time_ns := m_time_nano,
          dev := dev, inode := inode, mode := mode, uid := uid,
          gid := gid, size := size, sha := bsha, name := name }, input)

/-- `Index` (src/index.rs): entries only — this generation of the struct
has no extension field. -/
structure Index where
  entries : List IndexEntry
  deriving DecidableEq, Repr

def dircTag : List Nat := [68, 73, 82, 67]

/-- The 12-byte header written by `Index::as_bytes`: magic, version 2,
entry count. -/
def indexHeader (count : Nat) : List Nat :=
  dircTag ++ [0, 0, 0, 2] ++ toBE32 count

/-- `impl AsBytes for Index` (src/index.rs): header, re-serialized
entries, then a fresh 20-byte digest of everything preceding it. The SHA-1
function of the external `sha1_smol` crate is a parameter `h`. -/
def Index.as_bytes (h : List Nat → List Nat) (i : Index) : List Nat :=
  indexHeader i.entries.length ++ (i.entries.map IndexEntry.as_bytes).flatten ++
    h (indexHeader i.entries.length ++ (i.entries.map IndexEntry.as_bytes).flatten)

/-- `parse_git_index` (src/index.rs): `is_a "DIRC"`, version (must be 2),
entry count (read and ignored), `many0` entries; everything after the
entries — extension data and trailing checksum — is discarded
(`let (_, entries) = many0(...)`). -/
def parse_git_index (input : List Nat) : Except GitError Index :=
  match takeWhile1P (fun b => b == 68 || b == 73 || b == 82 || b == 67) input with
  | none => .error .nomError
  | some (_, input) =>
    match takeBE32 input with
    | none => .error .nomError
    | some (version, input) =>
      if version ≠ 2 then .error (.unrecognizedIndexVersion version)
      else
        match takeBE32 input with
        | none => .error .nomError
        | some (_, input) =>
          .ok { entries := (many0P parse_git_index_entry input).1 }

/-! ## Object store (src/objects/mod.rs `write_object`)

Disk state is modeled as the list of object paths present under
`.git/objects`; the path of an object is determined by the hex form of its
digest (`hash[0..2]/hash[2..]`), which is injective in the digest, so the
digest itself stands in for the path. Directory creation for the two-hex
prefix has no observable effect on the properties below and is omitted. -/

/-- `write_object` (src/objects/mod.rs): encode, hash the full envelope,
and, when a store handle is supplied, first check the `.rusty-git-allowed`
guard and then write compressed contents keyed by hash — skipping the
write when the path already exists. -/
def write_object (h : List Nat → List Nat) (allowed : Bool) (obj : GitObj)
    (store : Option (List (List Nat))) :
    Except GitError (List Nat × Option (List (List Nat))) :=
  let obj_bytes := gitObjAsBytes obj
  let digest := h obj_bytes
  match store with
  | none => .ok (digest, none)
  | some st =>
    if allowed then
      .ok (digest, some (if digest ∈ st then st else digest :: st))
    else .error .rustyGitAllowedFileMissing

/-! ## Ref resolution (src/cmd_mods/refs.rs `resolve_ref`, identical to
src/utils.rs `git_resolve_ref`)

The filesystem under `.git/` is an association list from relative path to
file content. `&data[..5]` in the source panics when the content is
shorter than five bytes; that outcome is the explicit `panicked` result.
The recursion has no termination guarantee in the source (cyclic chains
loop forever), so the model takes fuel and reports `outOfFuel` when it is
exhausted. -/

abbrev FS : Type := List (List Nat × List Nat)

def fsRead (fs : FS) (p : List Nat) : Option (List Nat) :=
  (fs.find? (fun q => decide (q.1 = p))).map (fun q => q.2)

/-- Bytes Rust's `str::trim` removes (ASCII whitespace). -/
def wsB (b : Nat) : Bool :=
  b == 32 || b == 9 || b == 10 || b == 11 || b == 12 || b == 13

/-- `str::trim` on bytes. -/
def trimB (l : List Nat) : List Nat :=
  ((l.dropWhile wsB).reverse.dropWhile wsB).reverse

def refTag : List Nat := [114, 101, 102, 58, 32]

inductive RefResult
  | ok (hash : List Nat)
  | ioError
  | panicked
  | outOfFuel
  deriving DecidableEq, Repr

/-- `resolve_ref` (src/cmd_mods/refs.rs): read the ref file, slice its
first five bytes (panicking when shorter), follow `"ref: "` indirection
recursively, else return the trimmed content. -/
def resolve_ref (fs : FS) : Nat → List Nat → RefResult
  | 0, _ => .outOfFuel
  | fuel+1, p =>
    match fsRead fs p with
    | none => .ioError
    | some data =>
      if data.length < 5 then .panicked
      else if data.take 5 = refTag then resolve_ref fs fuel (trimB (data.drop 5))
      else .ok (trimB data)

/-! ## HEAD resolution and the status staged-view
(src/utils.rs `git_sha_from_head`, src/cmd_mods/status.rs) -/

def headPath : List Nat := [72, 69, 65, 68]

/-- `parse_git_head` (src/objects/mod.rs): `is_not " "`, `space1`,
`take_till1 is_newline`. -/
def parse_git_head (input : List Nat) : Except GitError (List Nat) :=
  match takeWhile1P (fun b => b != 32) input with
  | none => .error .nomError
  | some (_, input) =>
    match takeWhile1P (fun b => b == 32 || b == 9) input with
    | none => .error .nomError
    | some (_, input) =>
      match takeWhile1P (fun b => b != 10) input with
      | none => .error .nomError
      | some (head_ref, _) => .ok head_ref

/-- `git_sha_from_head` (src/utils.rs): read HEAD, parse the ref it names;
if that ref file exists return its trimmed content, else
`GitNoCommitsExistYet`. -/
def git_sha_from_head (fs : FS) : Except GitError (List Nat) :=
  match fsRead fs headPath with
  | none => .error .ioError
  | some head =>
    match parse_git_head head with
    | .error e => .error e
    | .ok head_ref =>
      match fsRead fs head_ref with
      | some content => .ok (trimB content)
      | none => .error .noCommitsExistYet

def hexDigitB (n : Nat) : Nat := if n < 10 then 48 + n else 87 + n

/-- Modelled from the spec: `utils::get_sha_from_binary` is called by the
status engine but its definition is absent from the source snapshot; per
§4.2 the digest's hex form is the object's external identity, so this is
the standard lowercase hex rendering of the 20 raw digest bytes. -/
def get_sha_from_binary (sha : List Nat) : List Nat :=
  (sha.map (fun b => [hexDigitB (b / 16), hexDigitB (b % 16)])).flatten

/-- `impl NameSha for IndexEntry` with no name prefix, as invoked by
`index_file_sha_pairs` in src/cmd_mods/status.rs. -/
def index_file_sha_pairs (entries : List IndexEntry) :
    List (List Nat × List Nat) :=
  entries.map (fun e => (e.name, get_sha_from_binary e.sha))

/-- The `"modified: {name}\n"` line format of the staged report. -/
def modifiedLine (name : List Nat) : List Nat :=
  [109, 111, 100, 105, 102, 105, 101, 100, 58, 32] ++ name ++ [10]

inductive StagedOut
  | ok (lines : List (List Nat))
  | err (e : GitError)
  | panicked
  deriving DecidableEq, Repr

/-- The `HashSet::difference` + format step of `staged_but_not_commited`:
index pairs absent from the committed set, one "modified:" line each.
`HashSet` iteration order is unspecified in Rust; the model fixes index
order, and the claims below only use membership, which is order-blind. -/
def stagedDiff (commitPairs : List (List Nat × List Nat)) (index : Index) :
    StagedOut :=
  .ok (((index_file_sha_pairs index.entries).filter
          (fun pr => !(commitPairs.contains pr))).map
        (fun pr => modifiedLine pr.1))

/-- `staged_but_not_commited` (src/cmd_mods/status.rs). `commitPairsOf`
abstracts the `read_object` + `git_get_tree_from_commit` +
`tree_file_sha_pairs` pipeline of the Ok branch (including its
expected-commit check), which the no-commit claim never reaches. When
`git_sha_from_head` fails, the source asserts the error is exactly
`GitNoCommitsExistYet` — any other error panics — and proceeds with an
empty committed set. -/
def staged_but_not_commited
    (commitPairsOf : List Nat → Except GitError (List (List Nat × List Nat)))
    (fs : FS) (index : Index) : StagedOut :=
  match git_sha_from_head fs with
  | .ok hsha =>
    match commitPairsOf hsha with
    | .error e => .err e
    | .ok commitPairs => stagedDiff commitPairs index
  | .error e =>
    if e = .noCommitsExistYet then stagedDiff [] index else .panicked

/-! ## Adding an entry to the index (src/utils.rs `git_add_entry_to_index`
and src/cmd_mods/add.rs `add_entry_to_index`)

Both parse the index, build an entry for the file, and splice it in via
`Vec::binary_search` — which compares entries with `Ord for IndexEntry`,
i.e. `self.name.cmp(&other.name)`, byte-lexicographic on the UTF-8
names. -/

/-- Byte-lexicographic comparison (`Ord::cmp` on `String`/`Vec<u8>`). -/
def cmpBytes : List Nat → List Nat → Ordering
  | [], [] => .eq
  | [], _ :: _ => .lt
  | _ :: _, [] => .gt
  | a :: as_, b :: bs =>
    if a < b then .lt else if b < a then .gt else cmpBytes as_ bs

/-- The element the loop probes at position `i` (`self[mid]`'s name);
probes are always in bounds when the caller's interval is. -/
def nameAt (l : List IndexEntry) (i : Nat) : List Nat :=
  ((l.get? i).map IndexEntry.name).getD []

/-- The core loop of `slice::binary_search_by`: interval `[left, right)`,
probe `mid = left + (right - left) / 2`, narrow on `Less`/`Greater`,
return `Ok(mid)` on `Equal`, `Err(left)` when the interval empties. Fuel
is a technical device; `right - left` shrinks every round. -/
def binSearchLoop (l : List IndexEntry) (key : List Nat) :
    Nat → Nat → Nat → Sum Nat Nat
  | 0, left, _ => .inr left
  | fuel+1, left, right =>
    if left < right then
      match cmpBytes (nameAt l (left + (right - left) / 2)) key with
      | .lt => binSearchLoop l key fuel (left + (right - left) / 2 + 1) right
      | .gt => binSearchLoop l key fuel left (left + (right - left) / 2)
      | .eq => .inl (left + (right - left) / 2)
    else .inr left

/-- `index.entries.binary_search(&entry)` by name. -/
def binary_search (l : List IndexEntry) (key : List Nat) : Sum Nat Nat :=
  binSearchLoop l key (l.length + 1) 0 l.length

/-- `Vec::remove(pos)` (total model; the source call sites guarantee
`pos` is in bounds). -/
def removeAt : Nat → List IndexEntry → List IndexEntry
  | _, [] => []
  | 0, _ :: t => t
  | n+1, a :: t => a :: removeAt n t

/-- `Vec::insert(pos, e)` (total model; the source call sites guarantee
`pos ≤ len`). -/
def insertAt : Nat → IndexEntry → List IndexEntry → List IndexEntry
  | 0, e, l => e :: l
  | _+1, e, [] => [e]
  | n+1, e, a :: t => a :: insertAt n e t

/-- The index mutation of `git_add_entry_to_index` (src/utils.rs):
on `Ok(pos)` remove the existing entry and insert the new one at the same
position; on `Err(pos)` insert at the reported insertion point. -/
def git_add_entry_to_index (index : List IndexEntry) (entry : IndexEntry) :
    List IndexEntry :=
  match binary_search index entry.name with
  | .inl pos => insertAt pos entry (removeAt pos index)
  | .inr pos => insertAt pos entry index

/-! ## Well-formedness predicates: the canonical domain of each codec -/

/-- An index entry as the codec produces and consumes it: u32-ranged
numeric fields, chrono-valid nanosecond parts, a 20-byte digest, and a
name short enough for its u16 length field. -/
def WfEntry (e : IndexEntry) : Prop :=
  e.c_time_s < 4294967296 ∧ e.c_time_ns < 2000000000 ∧
  e.m_time_s < 4294967296 ∧ e.m_time_ns < 2000000000 ∧
  e.dev < 4294967296 ∧ e.inode < 4294967296 ∧ e.mode < 4294967296 ∧
  e.uid < 4294967296 ∧ e.gid < 4294967296 ∧ e.size < 4294967296 ∧
  e.sha.length = 20 ∧ e.name.length < 65536

instance (e : IndexEntry) : Decidable (WfEntry e) := by
  unfold WfEntry
  infer_instance

theorem as_bytes_assoc (e : IndexEntry) (rest : List Nat) :
    e.as_bytes ++ rest =
      toBE32 e.c_time_s ++ (toBE32 e.c_time_ns ++ (toBE32 e.m_time_s ++ (toBE32 e.m_time_ns ++
        (toBE32 e.dev ++ (toBE32 e.inode ++ (toBE32 e.mode ++ (toBE32 e.uid ++
        (toBE32 e.gid ++ (toBE32 e.size ++ (e.sha ++ (toBE16 e.name.length ++
        (e.name ++ (List.replicate (indexPadLen e.name.length) 0 ++ rest))))))))))))) := by
  simp [IndexEntry.as_bytes]

theorem parse_git_index_entry_chunk {e : IndexEntry} (he : WfEntry e) (rest : List Nat) :
    parse_git_index_entry (e.as_bytes ++ rest) = some (e, rest) := by
  obtain ⟨h1, h2, h3, h4, h5, h6, h7, h8, h9, h10, hsha, hname⟩ := he
  have hc1 : ¬(2000000000 ≤ e.c_time_ns) := by omega
  have hc2 : ¬(2000000000 ≤ e.m_time_ns) := by omega
  have hpad : (List.replicate (indexPadLen e.name.length) 0).length =
      indexPadLen e.name.length := by simp
  unfold parse_git_index_entry
  rw [as_bytes_assoc]
  rw [takeBE32_toBE32_of_lt h1, Option.some_bind]
  dsimp only
  rw [takeBE32_toBE32_of_lt (by omega : e.c_time_ns < 4294967296), Option.some_bind]
  dsimp only
  rw [if_neg hc1]
  rw [takeBE32_toBE32_of_lt h3, Option.some_bind]
  dsimp only
  rw [takeBE32_toBE32_of_lt (by omega : e.m_time_ns < 4294967296), Option.some_bind]
  dsimp only
  rw [if_neg hc2]
  rw [takeBE32_toBE32_of_lt h5, Option.some_bind]
  dsimp only
  rw [takeBE32_toBE32_of_lt h6, Option.some_bind]
  dsimp only
  rw [takeBE32_toBE32_of_lt h7, Option.some_bind]
  dsimp only
  rw [takeBE32_toBE32_of_lt h8, Option.some_bind]
  dsimp only
  rw [takeBE32_toBE32_of_lt h9, Option.some_bind]
  dsimp only
  rw [takeBE32_toBE32_of_lt h10, Option.some_bind]
  dsimp only
  rw [takeN_of_length_eq hsha, Option.some_bind]
  dsimp only
  rw [takeBE16_toBE16_of_lt hname, Option.some_bind]
  dsimp only
  rw [takeN_append, Option.some_bind]
  dsimp only
  rw [takeN_of_length_eq hpad, Option.some_bind]

theorem parse_git_index_entry_bound {l : List Nat} {e : IndexEntry} {r : List Nat}
    (h : parse_git_index_entry l = some (e, r)) : r.length + 62 ≤ l.length := by
  unfold parse_git_index_entry at h
  cases hx1 : takeBE32 l
  · rw [hx1, Option.none_bind] at h
    exact Option.noConfusion h
  rename_i pr1
  obtain ⟨v1, l1⟩ := pr1
  rw [hx1, Option.some_bind] at h
  dsimp only at h
  cases hx2 : takeBE32 l1
  · rw [hx2, Option.none_bind] at h
    exact Option.noConfusion h
  rename_i pr2
  obtain ⟨v2, l2⟩ := pr2
  rw [hx2, Option.some_bind] at h
  dsimp only at h
  rw [ite_eq_iff] at h
  rcases h with ⟨-, h⟩ | ⟨-, h⟩
  · exact Option.noConfusion h
  cases hx3 : takeBE32 l2
  · rw [hx3, Option.none_bind] at h
    exact Option.noConfusion h
  rename_i pr3
  obtain ⟨v3, l3⟩ := pr3
  rw [hx3, Option.some_bind] at h
  dsimp only at h
  cases hx4 : takeBE32 l3
  · rw [hx4, Option.none_bind] at h
    exact Option.noConfusion h
  rename_i pr4
  obtain ⟨v4, l4⟩ := pr4
  rw [hx4, Option.some_bind] at h
  dsimp only at h
  rw [ite_eq_iff] at h
  rcases h with ⟨-, h⟩ | ⟨-, h⟩
  · exact Option.noConfusion h
  cases hx5 : takeBE32 l4
  · rw [hx5, Option.none_bind] at h
    exact Option.noConfusion h
  rename_i pr5
  obtain ⟨v5, l5⟩ := pr5
  rw [hx5, Option.some_bind] at h
  dsimp only at h
  cases hx6 : takeBE32 l5
  · rw [hx6, Option.none_bind] at h
    exact Option.noConfusion h
  rename_i pr6
  obtain ⟨v6, l6⟩ := pr6
  rw [hx6, Option.some_bind] at h
  dsimp only at h
  cases hx7 : takeBE32 l6
  · rw [hx7, Option.none_bind] at h
    exact Option.noConfusion h
  rename_i pr7
  obtain ⟨v7, l7⟩ := pr7
  rw [hx7, Option.some_bind] at h
  dsimp only at h
  cases hx8 : takeBE32 l7
  · rw [hx8, Option.none_bind] at h
    exact Option.noConfusion h
  rename_i pr8
  obtain ⟨v8, l8⟩ := pr8
  rw [hx8, Option.some_bind] at h
  dsimp only at h
  cases hx9 : takeBE32 l8
  · rw [hx9, Option.none_bind] at h
    exact Option.noConfusion h
  rename_i pr9
  obtain ⟨v9, l9⟩ := pr9
  rw [hx9, Option.some_bind] at h
  dsimp only at h
  cases hx10 : takeBE32 l9
  · rw [hx10, Option.none_bind] at h
    exact Option.noConfusion h
  rename_i pr10
  obtain ⟨v10, l10⟩ := pr10
  rw [hx10, Option.some_bind] at h
  dsimp only at h
  cases hx11 : takeN 20 l10
  · rw [hx11, Option.none_bind] at h
    exact Option.noConfusion h
  rename_i pr11
  obtain ⟨v11, l11⟩ := pr11
  rw [hx11, Option.some_bind] at h
  dsimp only at h
  cases hx12 : takeBE16 l11
  · rw [hx12, Option.none_bind] at h
    exact Option.noConfusion h
  rename_i pr12
  obtain ⟨v12, l12⟩ := pr12
  rw [hx12, Option.some_bind] at h
  dsimp only at h
  cases hx13 : takeN v12 l12
  · rw [hx13, Option.none_bind] at h
    exact Option.noConfusion h
  rename_i pr13
  obtain ⟨v13, l13⟩ := pr13
  rw [hx13, Option.some_bind] at h
  dsimp only at h
  cases hx14 : takeN (indexPadLen v12) l13
  · rw [hx14, Option.none_bind] at h
    exact Option.noConfusion h
  rename_i pr14
  obtain ⟨v14, l14⟩ := pr14
  rw [hx14, Option.some_bind] at h
  dsimp only at h
  simp only [Option.some_inj, Prod.mk.injEq] at h
  obtain ⟨-, hr⟩ := h
  subst hr
  have d1 := takeBE32_length hx1
  have d2 := takeBE32_length hx2
  have d3 := takeBE32_length hx3
  have d4 := takeBE32_length hx4
  have d5 := takeBE32_length hx5
  have d6 := takeBE32_length hx6
  have d7 := takeBE32_length hx7
  have d8 := takeBE32_length hx8
  have d9 := takeBE32_length hx9
  have d10 := takeBE32_length hx10
  have d11 := takeN_length hx11
  have d12 := takeBE16_length hx12
  have d13 := takeN_length hx13
  have d14 := takeN_length hx14
  omega

theorem parse_git_index_entry_consuming : Consuming parse_git_index_entry := by
  intro l a r h
  have := parse_git_index_entry_bound h
  omega

theorem parse_git_index_entry_short {l : List Nat} (h : l.length < 62) :
    parse_git_index_entry l = none := by
  cases hx : parse_git_index_entry l with
  | none => rfl
  | some er =>
    obtain ⟨e, r⟩ := er
    have := parse_git_index_entry_bound hx
    omega

/-- Master shape lemma for `parse_git_index`: header with any count,
well-formed entries, then a region the entry parser rejects; the parsed
index is exactly the entries. -/
theorem parse_git_index_general {entries : List IndexEntry} (c : Nat) {s : List Nat}
    (hw : ∀ e ∈ entries, WfEntry e) (hs : parse_git_index_entry s = none) :
    parse_git_index (dircTag ++ [0, 0, 0, 2] ++ toBE32 c ++
        (entries.map IndexEntry.as_bytes).flatten ++ s) =
      .ok { entries := entries } := by
  unfold parse_git_index
  have hdirc : takeWhile1P (fun b => b == 68 || b == 73 || b == 82 || b == 67)
      (dircTag ++ [0, 0, 0, 2] ++ toBE32 c ++ (entries.map IndexEntry.as_bytes).flatten ++ s) =
      some (dircTag, [0, 0, 0, 2] ++ toBE32 c ++ (entries.map IndexEntry.as_bytes).flatten ++ s) := by
    simp only [List.append_assoc]
    exact takeWhile1P_append_stop (by decide) (by decide) (by simp [stopsAt])
  rw [hdirc]
  dsimp only
  have hver : takeBE32 ([0, 0, 0, 2] ++ toBE32 c ++ (entries.map IndexEntry.as_bytes).flatten ++ s) =
      some (2, toBE32 c ++ (entries.map IndexEntry.as_bytes).flatten ++ s) := by
    simp [takeBE32]
  rw [hver]
  dsimp only
  simp only [ne_eq, not_true_eq_false, if_false]
  rw [show (toBE32 c ++ (entries.map IndexEntry.as_bytes).flatten ++ s) =
      (toBE32 c ++ ((entries.map IndexEntry.as_bytes).flatten ++ s)) by simp,
    takeBE32_toBE32]
  dsimp only
  rw [many0P_chunks parse_git_index_entry_consuming IndexEntry.as_bytes entries s
    (fun e he rest => parse_git_index_entry_chunk (hw e he) rest) hs]

/-- Decoding bytes produced by `Index::as_bytes` recovers the same
`Index` value: the digest tail is 20 bytes, which the 62-byte-minimum
entry parser rejects, stopping `many0` exactly at the entry boundary. -/
theorem parse_git_index_as_bytes {h : List Nat → List Nat} {idx : Index}
    (hh : ∀ x, (h x).length = 20) (hw : ∀ e ∈ idx.entries, WfEntry e) :
    parse_git_index (Index.as_bytes h idx) = .ok idx := by
  unfold Index.as_bytes indexHeader
  have hshort : parse_git_index_entry
      (h (dircTag ++ [0, 0, 0, 2] ++ toBE32 idx.entries.length ++
        (idx.entries.map IndexEntry.as_bytes).flatten)) = none :=
    parse_git_index_entry_short (by rw [hh]; omega)
  have := @parse_git_index_general idx.entries idx.entries.length _ hw hshort
  simp only [List.append_assoc] at this ⊢
  rw [this]

/-! ## Tree codec lemmas -/

/-- A tree leaf the wire format can carry exactly: nonempty space-free
mode, nonempty NUL-free path not starting with space or tab (nom `space1`
is greedy over both), and a 20-byte sha. -/
def WfLeaf (lf : TreeLeaf) : Prop :=
  lf.mode ≠ [] ∧ (∀ b ∈ lf.mode, b ≠ 32) ∧
  lf.path ≠ [] ∧ (∀ b ∈ lf.path, b ≠ 0) ∧
  (∀ b, lf.path.head? = some b → b ≠ 32 ∧ b ≠ 9) ∧
  lf.sha.length = 20

instance (lf : TreeLeaf) : Decidable (WfLeaf lf) := by
  unfold WfLeaf
  infer_instance

def WfTree (t : Tree) : Prop :=
  t.contents ≠ [] ∧ ∀ lf ∈ t.contents, WfLeaf lf

theorem leaf_as_bytes_assoc (lf : TreeLeaf) (rest : List Nat) :
    lf.as_bytes ++ rest = lf.mode ++ ([32] ++ (lf.path ++ ([0] ++ (lf.sha ++ rest)))) := by
  simp [TreeLeaf.as_bytes]

theorem stopsAt_cons_of_head {p : Nat → Bool} {s : List Nat}
    (h : ∀ b, s.head? = some b → p b = false) : stopsAt p s := by
  cases s with
  | nil => trivial
  | cons b t => exact h b rfl

/-- nom `space1` stops at the head of a nonempty chunk whose first byte is
neither space nor tab, whatever follows the chunk. -/
theorem stopsAt_space_append {v : List Nat} (hv1 : v ≠ [])
    (hv3 : ∀ b, v.head? = some b → b ≠ 32 ∧ b ≠ 9) (X : List Nat) :
    stopsAt (fun b => b == 32 || b == 9) (v ++ X) := by
  cases v with
  | nil => exact absurd rfl hv1
  | cons a t =>
    have := hv3 a rfl
    simp [stopsAt, this.1, this.2]

theorem parse_git_tree_leaf_chunk {lf : TreeLeaf} (hw : WfLeaf lf) (rest : List Nat) :
    parse_git_tree_leaf (lf.as_bytes ++ rest) = some (lf, rest) := by
  obtain ⟨hm1, hm2, hp1, hp2, hp3, hsha⟩ := hw
  unfold parse_git_tree_leaf
  rw [leaf_as_bytes_assoc]
  rw [takeWhile1P_append_stop (fun x hx => by simp [hm2 x hx]) hm1 (by simp [stopsAt])]
  rw [Option.some_bind]
  dsimp only
  rw [@takeWhile1P_append_stop (fun b => b == 32 || b == 9) [32] _ (by simp) (by simp)
    (stopsAt_space_append hp1 hp3 ([0] ++ (lf.sha ++ rest)))]
  rw [Option.some_bind]
  dsimp only
  rw [takeWhile1P_append_stop (fun x hx => by simp [hp2 x hx]) hp1 (by simp [stopsAt])]
  rw [Option.some_bind]
  dsimp only
  rw [tagP_append]
  rw [Option.some_bind]
  rw [takeN_of_length_eq hsha]
  rw [Option.some_bind]

theorem parse_git_tree_leaf_nil : parse_git_tree_leaf [] = none := by
  rfl

theorem parse_git_tree_leaf_consuming : Consuming parse_git_tree_leaf := by
  intro l a r h
  unfold parse_git_tree_leaf at h
  cases hx1 : takeWhile1P (fun b => b != 32) l
  · rw [hx1, Option.none_bind] at h
    exact Option.noConfusion h
  rename_i pr1
  obtain ⟨v1, l1⟩ := pr1
  rw [hx1, Option.some_bind] at h
  dsimp only at h
  cases hx2 : takeWhile1P (fun b => b == 32 || b == 9) l1
  · rw [hx2, Option.none_bind] at h
    exact Option.noConfusion h
  rename_i pr2
  obtain ⟨v2, l2⟩ := pr2
  rw [hx2, Option.some_bind] at h
  dsimp only at h
  cases hx3 : takeWhile1P (fun b => b != 0) l2
  · rw [hx3, Option.none_bind] at h
    exact Option.noConfusion h
  rename_i pr3
  obtain ⟨v3, l3⟩ := pr3
  rw [hx3, Option.some_bind] at h
  dsimp only at h
  cases hx4 : tagP [0] l3
  · rw [hx4, Option.none_bind] at h
    exact Option.noConfusion h
  rename_i l4
  rw [hx4, Option.some_bind] at h
  cases hx5 : takeN 20 l4
  · rw [hx5, Option.none_bind] at h
    exact Option.noConfusion h
  rename_i pr5
  obtain ⟨v5, l5⟩ := pr5
  rw [hx5, Option.some_bind] at h
  dsimp only at h
  simp only [Option.some_inj, Prod.mk.injEq] at h
  obtain ⟨-, hr⟩ := h
  subst hr
  have d1 := takeWhile1P_length hx1
  have d2 := takeWhile1P_length hx2
  have d3 := takeWhile1P_length hx3
  have d4 := tagP_length hx4
  have d5 := takeN_length hx5
  simp at d4
  omega

theorem parse_git_tree_body {t : Tree} (hw : WfTree t) :
    parse_git_tree (treeBody t) = .ok t := by
  obtain ⟨hne, hleaf⟩ := hw
  unfold parse_git_tree treeBody
  cases hc : t.contents with
  | nil => exact absurd hc hne
  | cons x xs =>
    have hchunk : ∀ y ∈ x :: xs, ∀ rest, parse_git_tree_leaf (TreeLeaf.as_bytes y ++ rest) =
        some (y, rest) := by
      intro y hy rest
      exact parse_git_tree_leaf_chunk (hleaf y (by rw [hc]; exact hy)) rest
    have hm1 := many1P_chunks parse_git_tree_leaf_consuming TreeLeaf.as_bytes x xs []
      hchunk parse_git_tree_leaf_nil
    rw [List.append_nil] at hm1
    rw [hm1]
    dsimp only
    rw [← hc]

/-! ## Commit codec lemmas -/

def WfKey (k : List Nat) : Prop :=
  k ≠ [] ∧ ∀ b ∈ k, b ≠ 32 ∧ b ≠ 9 ∧ b ≠ 13 ∧ b ≠ 10

def WfVal (v : List Nat) : Prop :=
  v ≠ [] ∧ (∀ b ∈ v, b ≠ 10) ∧ (∀ b, v.head? = some b → b ≠ 32 ∧ b ≠ 9)

/-- A commit value the body format round-trips: at least one header pair,
insertion order listing exactly the stored keys, no duplicate keys, keys
and values parseable back, and a message not starting with a newline (the
separator parser swallows every leading newline). -/
def WfCommit (c : Commit) : Prop :=
  c.kvs ≠ [] ∧
  c.kvs_order = c.kvs.map Prod.fst ∧
  (c.kvs.map Prod.fst).Nodup ∧
  (∀ kv ∈ c.kvs, WfKey kv.1 ∧ WfVal kv.2) ∧
  (∀ b, c.msg.head? = some b → b ≠ 10)

/-- The wire line of one header pair. -/
def kvLine (kv : List Nat × List Nat) : List Nat :=
  kv.1 ++ [32] ++ kv.2 ++ [10]

theorem hmGet_of_nodup {m : List (List Nat × List Nat)}
    (hnd : (m.map Prod.fst).Nodup) {kv : List Nat × List Nat} (hm : kv ∈ m) :
    hmGet m kv.1 = some kv := by
  induction m with
  | nil => simp at hm
  | cons hd tl ih =>
    simp only [List.map_cons, List.nodup_cons] at hnd
    rcases List.mem_cons.mp hm with heq | htl
    · subst heq
      simp [hmGet, List.find?]
    · have hne : hd.1 ≠ kv.1 := by
        intro hc
        exact hnd.1 (hc ▸ List.mem_map_of_mem Prod.fst htl)
      unfold hmGet
      rw [List.find?]
      have : (decide (hd.1 = kv.1)) = false := by simp [hne]
      rw [this]
      exact ih hnd.2 htl

theorem commit_body_eq {c : Commit} (hw : WfCommit c) :
    commit_body_as_bytes c = (c.kvs.map kvLine).flatten ++ ([10] ++ c.msg) := by
  obtain ⟨-, horder, hnd, -, -⟩ := hw
  unfold commit_body_as_bytes
  rw [horder, List.map_map]
  have hmap : c.kvs.map ((fun elm =>
      match hmGet c.kvs elm with
      | some (k, v) => k ++ [32] ++ v ++ [10]
      | none => []) ∘ Prod.fst) = c.kvs.map kvLine := by
    apply List.map_congr_left
    intro kv hkv
    obtain ⟨k, v⟩ := kv
    simp only [Function.comp_apply]
    rw [hmGet_of_nodup hnd hkv]
    simp [kvLine]
  rw [hmap]
  simp

theorem parse_kv_pair_chunk {kv : List Nat × List Nat}
    (hk : WfKey kv.1) (hv : WfVal kv.2) (rest : List Nat) :
    parse_kv_pair (kvLine kv ++ rest) = some (kv, rest) := by
  obtain ⟨hk1, hk2⟩ := hk
  obtain ⟨hv1, hv2, hv3⟩ := hv
  unfold parse_kv_pair
  rw [show kvLine kv ++ rest = kv.1 ++ ([32] ++ (kv.2 ++ ([10] ++ rest))) by
    simp [kvLine]]
  rw [takeWhile1P_append_stop (fun x hx => by
      obtain ⟨a, b, c, d⟩ := hk2 x hx
      simp [a, b, c, d]) hk1 (by simp [stopsAt])]
  rw [Option.some_bind]
  dsimp only
  rw [@takeWhile1P_append_stop (fun b => b == 32 || b == 9) [32] _ (by simp) (by simp)
    (stopsAt_space_append hv1 hv3 ([10] ++ rest))]
  rw [Option.some_bind]
  dsimp only
  rw [takeWhile1P_append_stop (fun x hx => by simp [hv2 x hx]) hv1 (by simp [stopsAt])]
  rw [Option.some_bind]
  dsimp only
  rw [@takeN_of_length_eq 1 [10] (by simp) rest]
  rw [Option.some_bind]

theorem parse_kv_pair_newline (msg : List Nat) : parse_kv_pair (10 :: msg) = none := by
  unfold parse_kv_pair
  rw [takeWhile1P_none (by simp [stopsAt]), Option.none_bind]

theorem parse_kv_pair_consuming : Consuming parse_kv_pair := by
  intro l a r h
  unfold parse_kv_pair at h
  cases hx1 : takeWhile1P (fun b => !(b == 32 || b == 9 || b == 13 || b == 10)) l
  · rw [hx1, Option.none_bind] at h
    exact Option.noConfusion h
  rename_i pr1
  obtain ⟨v1, l1⟩ := pr1
  rw [hx1, Option.some_bind] at h
  dsimp only at h
  cases hx2 : takeWhile1P (fun b => b == 32 || b == 9) l1
  · rw [hx2, Option.none_bind] at h
    exact Option.noConfusion h
  rename_i pr2
  obtain ⟨v2, l2⟩ := pr2
  rw [hx2, Option.some_bind] at h
  dsimp only at h
  cases hx3 : takeWhile1P (fun b => b != 10) l2
  · rw [hx3, Option.none_bind] at h
    exact Option.noConfusion h
  rename_i pr3
  obtain ⟨v3, l3⟩ := pr3
  rw [hx3, Option.some_bind] at h
  dsimp only at h
  cases hx4 : takeN 1 l3
  · rw [hx4, Option.none_bind] at h
    exact Option.noConfusion h
  rename_i pr4
  obtain ⟨v4, l4⟩ := pr4
  rw [hx4, Option.some_bind] at h
  dsimp only at h
  simp only [Option.some_inj, Prod.mk.injEq] at h
  obtain ⟨-, hr⟩ := h
  subst hr
  have d1 := takeWhile1P_length hx1
  have d2 := takeWhile1P_length hx2
  have d3 := takeWhile1P_length hx3
  have d4 := takeN_length hx4
  omega

theorem buildKvs_go (pairs : List (List Nat × List Nat)) :
    ∀ (acc_ord : List (List Nat)) (acc_map : List (List Nat × List Nat)),
      (pairs.map Prod.fst).Nodup →
      (∀ k ∈ pairs.map Prod.fst, k ∉ acc_map.map Prod.fst) →
      pairs.foldl (fun acc kv => (acc.1 ++ [kv.1], hmInsert acc.2 kv.1 kv.2))
        (acc_ord, acc_map) =
        (acc_ord ++ pairs.map Prod.fst, acc_map ++ pairs) := by
  induction pairs with
  | nil => intro acc_ord acc_map _ _; simp
  | cons kv tl ih =>
    intro acc_ord acc_map hnd hfresh
    simp only [List.map_cons, List.nodup_cons] at hnd
    have hins : hmInsert acc_map kv.1 kv.2 = acc_map ++ [kv] := by
      have hk : kv.1 ∉ acc_map.map Prod.fst := hfresh kv.1 (by simp)
      clear hfresh ih hnd
      induction acc_map with
      | nil => simp [hmInsert]
      | cons hd tl2 ih2 =>
        simp only [List.map_cons, List.mem_cons, not_or] at hk
        unfold hmInsert
        rw [if_neg (fun hc => hk.1 hc.symm)]
        rw [ih2 hk.2]
        simp
    rw [List.foldl_cons]
    dsimp only
    rw [hins]
    rw [ih (acc_ord ++ [kv.1]) (acc_map ++ [kv]) hnd.2 (fun k hk => by
      have hfr : k ∉ acc_map.map Prod.fst := hfresh k (by simp [hk])
      have hkk : k ≠ kv.1 := fun hc => hnd.1 (hc ▸ hk)
      simp [hfr, hkk])]
    simp

theorem buildKvs_eq {pairs : List (List Nat × List Nat)}
    (hnd : (pairs.map Prod.fst).Nodup) :
    buildKvs pairs = (pairs.map Prod.fst, pairs) := by
  unfold buildKvs
  rw [buildKvs_go pairs [] [] hnd (by simp)]
  simp

theorem parse_seperator_line_msg {msg : List Nat}
    (hmsg : ∀ b, msg.head? = some b → b ≠ 10) :
    parse_seperator_line ([10] ++ msg) = some ([10], msg) := by
  unfold parse_seperator_line takeWhile0P
  dsimp only
  have hdrop : List.dropWhile (fun b => b == 32 || b == 9) ([10] ++ msg) = [10] ++ msg := by
    simp [List.dropWhile]
  rw [hdrop]
  rw [@takeWhile1P_append_stop (fun b => b == 10) [10] _ (by simp) (by simp)
    (stopsAt_cons_of_head (fun b hb => by simp [hmsg b hb]))]
  rw [Option.some_bind]

theorem parse_kv_list_msg_body {c : Commit} (hw : WfCommit c) :
    parse_kv_list_msg (commit_body_as_bytes c) c.sha = .ok c := by
  rw [commit_body_eq hw]
  obtain ⟨hne, horder, hnd, hkv, hmsg⟩ := hw
  obtain ⟨ckvs, cord, cmsg, csha⟩ := c
  dsimp only at hne horder hnd hkv hmsg ⊢
  subst horder
  unfold parse_kv_list_msg parse_kv_pairs
  cases hc : ckvs with
  | nil => exact absurd hc hne
  | cons x xs =>
    subst hc
    have hchunk : ∀ y ∈ x :: xs, ∀ rest, parse_kv_pair (kvLine y ++ rest) = some (y, rest) := by
      intro y hy rest
      have := hkv y hy
      exact parse_kv_pair_chunk this.1 this.2 rest
    have hm1 := many1P_chunks parse_kv_pair_consuming kvLine x xs ([10] ++ cmsg)
      hchunk (parse_kv_pair_newline cmsg)
    rw [hm1]
    dsimp only
    rw [buildKvs_eq hnd]
    dsimp only
    rw [parse_seperator_line_msg hmsg]

/-! ## Envelope lemmas -/

theorem parse_obj_len_chunk (n : Nat) (body : List Nat) :
    parse_obj_len ([32] ++ (decRepr n ++ ([0] ++ body))) = some (n, body) := by
  unfold parse_obj_len
  have hd := decRepr_digits n
  rw [@takeWhile1P_append_stop (fun b => b == 32 || b == 9) [32] _ (by simp) (by simp)
    (stopsAt_space_append (decRepr_ne_nil n) (fun b hb => by
      have hb' : b ∈ decRepr n := by
        cases hx : decRepr n with
        | nil => exact absurd hx (decRepr_ne_nil n)
        | cons y ys =>
          rw [hx] at hb
          simp at hb
          simp [hx, hb]
      have := hd b hb'
      omega) ([0] ++ body))]
  rw [Option.some_bind]
  dsimp only
  rw [takeWhile1P_append_stop (fun x hx => by
    have := hd x hx
    simp
    omega) (decRepr_ne_nil n) (by simp [stopsAt])]
  rw [Option.some_bind]
  dsimp only
  rw [tagP_append]
  rw [Option.some_bind]
  rw [parseUsize_decRepr]

theorem blobTag_head (r : List Nat) : tagP blobTag (blobTag ++ r) = some r :=
  tagP_append blobTag r

theorem tagP_blob_of_commit (r : List Nat) : tagP blobTag (commitTag ++ r) = none := by
  simp [tagP, blobTag, commitTag]

theorem tagP_blob_of_tree (r : List Nat) : tagP blobTag (treeTag ++ r) = none := by
  simp [tagP, blobTag, treeTag]

theorem tagP_commit_of_tree (r : List Nat) : tagP commitTag (treeTag ++ r) = none := by
  unfold tagP
  rw [if_neg]
  intro hc
  have : (treeTag ++ r).take commitTag.length ≠ commitTag := by
    unfold treeTag commitTag
    simp only [List.length_cons, List.cons_append]
    intro he
    rw [List.take_succ_cons] at he
    simp at he
  exact this hc

theorem altObjTag_blob (r : List Nat) : altObjTag (blobTag ++ r) = some (blobTag, r) := by
  unfold altObjTag
  rw [tagP_append]

theorem altObjTag_commit (r : List Nat) : altObjTag (commitTag ++ r) = some (commitTag, r) := by
  unfold altObjTag
  rw [tagP_blob_of_commit, tagP_append]

theorem altObjTag_tree (r : List Nat) : altObjTag (treeTag ++ r) = some (treeTag, r) := by
  unfold altObjTag
  rw [tagP_blob_of_tree, tagP_commit_of_tree, tagP_append]

/-- Well-formed in-memory objects: the codec's canonical domain. -/
def WfObj : GitObj → Prop
  | .blob b => b.len = b.contents.length
  | .tree t => WfTree t
  | .commit c => WfCommit c

/-- The sha parameter threaded through decoding: commits store it, the
other variants ignore it. -/
def shaMatches : GitObj → List Nat → Prop
  | .commit c, sha => sha = c.sha
  | _, _ => True

theorem blob_as_bytes_assoc (b : Blob) :
    Blob.as_bytes b = blobTag ++ ([32] ++ (decRepr b.len ++ ([0] ++ b.contents))) := by
  simp [Blob.as_bytes]

theorem tree_as_bytes_assoc (t : Tree) :
    Tree.as_bytes t = treeTag ++ ([32] ++ (decRepr (treeBody t).length ++ ([0] ++ treeBody t))) := by
  simp [Tree.as_bytes]

theorem commit_as_bytes_assoc (c : Commit) :
    Commit.as_bytes c = commitTag ++ ([32] ++ (decRepr (commit_body_as_bytes c).length ++
      ([0] ++ commit_body_as_bytes c))) := by
  simp [Commit.as_bytes]

theorem parse_git_obj_as_bytes {o : GitObj} {sha : List Nat}
    (hw : WfObj o) (hs : shaMatches o sha) :
    parse_git_obj (gitObjAsBytes o) sha = .ok o := by
  cases o with
  | blob b =>
    unfold WfObj at hw
    dsimp only at hw
    unfold parse_git_obj gitObjAsBytes
    dsimp only
    rw [blob_as_bytes_assoc, altObjTag_blob]
    dsimp only
    rw [parse_obj_len_chunk]
    dsimp only
    rw [if_neg (by simp [hw])]
    rw [if_pos rfl]
    unfold Blob.new
    rw [show Blob.mk b.contents b.contents.length = b by
      cases b
      dsimp only at hw ⊢
      rw [hw]]
  | tree t =>
    unfold WfObj at hw
    dsimp only at hw
    unfold parse_git_obj gitObjAsBytes
    dsimp only
    rw [tree_as_bytes_assoc, altObjTag_tree]
    dsimp only
    rw [parse_obj_len_chunk]
    dsimp only
    rw [if_neg (by simp)]
    rw [if_neg (by decide), if_pos rfl]
    rw [parse_git_tree_body hw]
    rfl
  | commit c =>
    unfold WfObj at hw
    dsimp only at hw
    unfold shaMatches at hs
    dsimp only at hs
    subst hs
    unfold parse_git_obj gitObjAsBytes
    dsimp only
    rw [commit_as_bytes_assoc, altObjTag_commit]
    dsimp only
    rw [parse_obj_len_chunk]
    dsimp only
    rw [if_neg (by simp)]
    rw [if_neg (by decide), if_neg (by decide)]
    rw [parse_kv_list_msg_body hw]
    rfl

/-! ## Generic envelope with an arbitrary declared length (for the
malformed-length claim): `<type-word> SP <decimal n> NUL <body>` -/

def tyTag : GitObjTyp → List Nat
  | .blob => blobTag
  | .commit => commitTag
  | .tree => treeTag

def envelopeOf (ty : GitObjTyp) (n : Nat) (body : List Nat) : List Nat :=
  tyTag ty ++ ([32] ++ (decRepr n ++ ([0] ++ body)))

theorem parse_obj_type_envelope (ty : GitObjTyp) (n : Nat) (body : List Nat) :
    parse_obj_type (envelopeOf ty n body) =
      some (ty, [32] ++ (decRepr n ++ ([0] ++ body))) := by
  cases ty with
  | blob => unfold parse_obj_type envelopeOf tyTag; rw [tagP_append]
  | commit => unfold parse_obj_type envelopeOf tyTag; rw [tagP_blob_of_commit, tagP_append]
  | tree =>
    unfold parse_obj_type envelopeOf tyTag
    rw [tagP_blob_of_tree, tagP_commit_of_tree, tagP_append]

/-- The new-generation parser rejects any envelope whose declared length
differs from the body length, with the `GitMalformedObject` error. -/
theorem parse_git_obj_mismatch {ty : GitObjTyp} {n : Nat} {body : List Nat}
    (hne : n ≠ body.length) (sha : List Nat) :
    parse_git_obj (envelopeOf ty n body) sha = .error .malformedObject := by
  unfold parse_git_obj
  have halt : altObjTag (envelopeOf ty n body) =
      some (tyTag ty, [32] ++ (decRepr n ++ ([0] ++ body))) := by
    cases ty with
    | blob => unfold envelopeOf tyTag; exact altObjTag_blob _
    | commit => unfold envelopeOf tyTag; exact altObjTag_commit _
    | tree => unfold envelopeOf tyTag; exact altObjTag_tree _
  rw [halt]
  dsimp only
  rw [parse_obj_len_chunk]
  dsimp only
  rw [if_pos hne]

/-- The legacy parser accepts the same mismatched envelope, storing the
declared length beside the full remaining contents. -/
theorem parse_git_obj_legacy_any (ty : GitObjTyp) (n : Nat) (body path sha : List Nat) :
    parse_git_obj_legacy (envelopeOf ty n body) path sha =
      .ok { obj := ty, len := n, contents := body, source := path, sha := sha } := by
  unfold parse_git_obj_legacy
  rw [parse_obj_type_envelope]
  dsimp only
  rw [parse_obj_len_chunk]

/-! ## Decidability of the well-formedness predicates (for concrete
instantiations) -/

instance (k : List Nat) : Decidable (WfKey k) := by
  unfold WfKey
  infer_instance

instance (v : List Nat) : Decidable (WfVal v) := by
  unfold WfVal
  infer_instance

instance (c : Commit) : Decidable (WfCommit c) := by
  unfold WfCommit
  infer_instance

instance (lf : TreeLeaf) : Decidable (WfLeaf lf) := by
  unfold WfLeaf
  infer_instance

instance (t : Tree) : Decidable (WfTree t) := by
  unfold WfTree
  infer_instance

instance (o : GitObj) : Decidable (WfObj o) :=
  match o with
  | .blob b => inferInstanceAs (Decidable (b.len = b.contents.length))
  | .tree t => inferInstanceAs (Decidable (WfTree t))
  | .commit c => inferInstanceAs (Decidable (WfCommit c))

/-! ## Concrete example values used by the witnesses -/

/-- A stand-in for the external SHA-1: constant 20-byte digest. -/
def constHash : List Nat → List Nat := fun _ => List.replicate 20 0

def exampleBlob : Blob := { contents := [104, 105], len := 2 }

def exampleEntry : IndexEntry :=
  { c_time_s := 0, c_time_ns := 0, m_time_s := 0, m_time_ns := 0,
    dev := 0, inode := 0, mode := 0, uid := 0, gid := 0, size := 0,
    sha := List.replicate 20 1, name := [97] }

def exampleIndex : Index := { entries := [exampleEntry] }

/-- The 17-byte body of the spec's malformed-envelope example
("git file contents"). -/
def mismatchBody : List Nat :=
  [103, 105, 116, 32, 102, 105, 108, 101, 32, 99, 111, 110, 116, 101, 110, 116, 115]

/-! ## Claims -/

/-- C1: decoding is a left inverse of encoding for every well-formed
object value (blob, tree, commit — a commit coming back with its header
pairs in their original insertion order) and for index entries and whole
index images, and re-encoding what was decoded from a well-formed encoded
image reproduces those bytes exactly. -/
theorem claim_C1_roundtrip :
    (∀ (o : GitObj) (sha : List Nat), WfObj o → shaMatches o sha →
      parse_git_obj (gitObjAsBytes o) sha = .ok o) ∧
    (∀ (o : GitObj) (sha : List Nat), WfObj o → shaMatches o sha →
      ∃ o', parse_git_obj (gitObjAsBytes o) sha = .ok o' ∧
        gitObjAsBytes o' = gitObjAsBytes o) ∧
    (∀ (e : IndexEntry) (rest : List Nat), WfEntry e →
      parse_git_index_entry (e.as_bytes ++ rest) = some (e, rest)) ∧
    (∀ (h : List Nat → List Nat) (idx : Index),
      (∀ x, (h x).length = 20) → (∀ e ∈ idx.entries, WfEntry e) →
      parse_git_index (Index.as_bytes h idx) = .ok idx) ∧
    (∀ (h : List Nat → List Nat) (idx : Index),
      (∀ x, (h x).length = 20) → (∀ e ∈ idx.entries, WfEntry e) →
      ∃ idx', parse_git_index (Index.as_bytes h idx) = .ok idx' ∧
        Index.as_bytes h idx' = Index.as_bytes h idx) ∧
    (∀ c : Commit, WfCommit c →
      ∃ c', parse_kv_list_msg (commit_body_as_bytes c) c.sha = .ok c' ∧
        c'.kvs_order = c.kvs_order ∧ commit_body_as_bytes c' = commit_body_as_bytes c) := by
  refine ⟨?_, ?_, ?_, ?_, ?_, ?_⟩
  · exact fun o sha hw hs => parse_git_obj_as_bytes hw hs
  · exact fun o sha hw hs => ⟨o, parse_git_obj_as_bytes hw hs, rfl⟩
  · exact fun e rest hw => parse_git_index_entry_chunk hw rest
  · exact fun h idx hh hw => parse_git_index_as_bytes hh hw
  · exact fun h idx hh hw => ⟨idx, parse_git_index_as_bytes hh hw, rfl⟩
  · exact fun c hw => ⟨c, parse_kv_list_msg_body hw, rfl, rfl⟩

theorem claim_C1_roundtrip_witness :
    parse_git_obj (gitObjAsBytes (GitObj.blob exampleBlob)) [] =
      .ok (GitObj.blob exampleBlob) ∧
    parse_git_index_entry (exampleEntry.as_bytes ++ [9, 9]) = some (exampleEntry, [9, 9]) ∧
    parse_git_index (Index.as_bytes constHash exampleIndex) = .ok exampleIndex :=
  ⟨claim_C1_roundtrip.1 (GitObj.blob exampleBlob) [] (by decide) trivial,
   claim_C1_roundtrip.2.2.1 exampleEntry [9, 9] (by decide),
   claim_C1_roundtrip.2.2.2.1 constHash exampleIndex (fun x => rfl) (by decide)⟩

/-- C2 (amended): `parse_git_index` in src/index.rs discards everything
after the entries — the extension region is not kept — and `Index::as_bytes`
emits only header, re-serialized entries, and a fresh digest of those
bytes; so re-encoding a parsed index with a non-empty extension region
drops the extension and does not reproduce the original bytes. -/
theorem claim_C2_extension_dropped (h : List Nat → List Nat)
    (entries : List IndexEntry) (ext tail : List Nat) (c : Nat)
    (hw : ∀ e ∈ entries, WfEntry e)
    (hstop : parse_git_index_entry (ext ++ tail) = none) :
    parse_git_index (dircTag ++ [0, 0, 0, 2] ++ toBE32 c ++
        (entries.map IndexEntry.as_bytes).flatten ++ (ext ++ tail)) =
      .ok { entries := entries } ∧
    Index.as_bytes h { entries := entries } =
      indexHeader entries.length ++ ((entries.map IndexEntry.as_bytes).flatten ++
        h (indexHeader entries.length ++ (entries.map IndexEntry.as_bytes).flatten)) ∧
    (ext ≠ [] → tail.length = 20 → (∀ x, (h x).length = 20) →
      Index.as_bytes h { entries := entries } ≠
        dircTag ++ [0, 0, 0, 2] ++ toBE32 c ++
          (entries.map IndexEntry.as_bytes).flatten ++ (ext ++ tail)) := by
  refine ⟨parse_git_index_general c hw hstop, by simp [Index.as_bytes], ?_⟩
  intro hne h20 hh hc
  have hlen := congrArg List.length hc
  have hpos : 0 < ext.length := List.length_pos.mpr hne
  simp only [Index.as_bytes, indexHeader, dircTag, toBE32, List.length_append,
    List.length_cons, List.length_nil, hh, h20] at hlen
  omega

theorem claim_C2_counterexample :
    parse_git_index (dircTag ++ [0, 0, 0, 2] ++ toBE32 0 ++
        ([84, 82, 69, 69] ++ List.replicate 20 0)) = .ok { entries := [] } ∧
    dircTag ++ [0, 0, 0, 2] ++ toBE32 0 ++ ([84, 82, 69, 69] ++ List.replicate 20 0) =
      indexHeader 0 ++ ([84, 82, 69, 69] ++
        constHash (indexHeader 0 ++ [84, 82, 69, 69])) ∧
    Index.as_bytes constHash { entries := [] } ≠
      dircTag ++ [0, 0, 0, 2] ++ toBE32 0 ++ ([84, 82, 69, 69] ++ List.replicate 20 0) := by
  refine ⟨rfl, rfl, by decide⟩

theorem claim_C2_extension_dropped_witness :
    parse_git_index (dircTag ++ [0, 0, 0, 2] ++ toBE32 0 ++
        (([] : List IndexEntry).map IndexEntry.as_bytes).flatten ++
        ([84, 82, 69, 69] ++ List.replicate 20 0)) = .ok { entries := [] } ∧
    Index.as_bytes constHash { entries := [] } ≠
      dircTag ++ [0, 0, 0, 2] ++ toBE32 0 ++
        (([] : List IndexEntry).map IndexEntry.as_bytes).flatten ++
        ([84, 82, 69, 69] ++ List.replicate 20 0) := by
  have h := claim_C2_extension_dropped constHash [] [84, 82, 69, 69]
    (List.replicate 20 0) 0 (by decide) (by rfl)
  exact ⟨h.1, h.2.2 (by decide) (by rfl) (fun x => rfl)⟩

/-- C3 (amended): the new-generation decoder (src/objects/mod.rs
`parse_git_obj`) rejects every envelope whose declared decimal length
differs from the actual body length with the fatal `GitMalformedObject`
error; the legacy decoder (src/object_parsers.rs `parse_git_obj`) accepts
the same envelope, silently storing the mismatched declared length beside
the full body. -/
theorem claim_C3_length_check (ty : GitObjTyp) (n : Nat) (body path sha : List Nat)
    (hne : n ≠ body.length) :
    parse_git_obj (envelopeOf ty n body) sha = .error .malformedObject ∧
    parse_git_obj_legacy (envelopeOf ty n body) path sha =
      .ok { obj := ty, len := n, contents := body, source := path, sha := sha } :=
  ⟨parse_git_obj_mismatch hne sha, parse_git_obj_legacy_any ty n body path sha⟩

theorem claim_C3_counterexample :
    envelopeOf .blob 12 mismatchBody =
      [98, 108, 111, 98, 32, 49, 50, 0] ++ mismatchBody ∧
    mismatchBody.length = 17 ∧
    parse_git_obj_legacy (envelopeOf .blob 12 mismatchBody) [] [] =
      .ok { obj := .blob, len := 12, contents := mismatchBody, source := [], sha := [] } :=
  ⟨rfl, rfl, parse_git_obj_legacy_any .blob 12 mismatchBody [] []⟩

theorem claim_C3_length_check_witness :
    parse_git_obj (envelopeOf .blob 12 mismatchBody) [] = .error .malformedObject ∧
    parse_git_obj_legacy (envelopeOf .blob 12 mismatchBody) [] [] =
      .ok { obj := .blob, len := 12, contents := mismatchBody, source := [], sha := [] } :=
  ⟨(claim_C3_length_check .blob 12 mismatchBody [] [] (by decide)).1,
   (claim_C3_length_check .blob 12 mismatchBody [] [] (by decide)).2⟩

/-- C4: the digest `write_object` returns is always the hash of the full
encoded envelope (header plus body — shown explicitly for blobs), so
byte-identical envelopes hash identically; and with a store handle the
write is idempotent: the first write adds exactly one path keyed by the
digest, a second write of the same object finds the path present, skips,
and leaves the store unchanged. -/
theorem claim_C4_write_object :
    (∀ (h : List Nat → List Nat) (allowed : Bool) (o : GitObj)
        (st : Option (List (List Nat))) (res : List Nat × Option (List (List Nat))),
      write_object h allowed o st = .ok res → res.1 = h (gitObjAsBytes o)) ∧
    (∀ b : Blob, gitObjAsBytes (.blob b) =
      blobTag ++ [32] ++ decRepr b.len ++ [0] ++ b.contents) ∧
    (∀ (h : List Nat → List Nat) (o : GitObj) (st : List (List Nat)),
      ∃ st', write_object h true o (some st) = .ok (h (gitObjAsBytes o), some st') ∧
        write_object h true o (some st') = .ok (h (gitObjAsBytes o), some st') ∧
        (h (gitObjAsBytes o) ∉ st → st'.count (h (gitObjAsBytes o)) = 1) ∧
        (h (gitObjAsBytes o) ∈ st → st' = st)) := by
  refine ⟨?_, fun b => rfl, ?_⟩
  · intro h A o st res hres
    unfold write_object at hres
    cases st with
    | none =>
      dsimp only at hres
      simp only [Except.ok.injEq] at hres
      rw [← hres]
    | some s =>
      dsimp only at hres
      cases A with
      | false => simp at hres
      | true =>
        simp only [if_true, Except.ok.injEq] at hres
        rw [← hres]
  · intro h o st
    by_cases hmem : h (gitObjAsBytes o) ∈ st
    · refine ⟨st, ?_, ?_, fun hc => absurd hmem hc, fun _ => rfl⟩
      · unfold write_object
        simp [hmem]
      · unfold write_object
        simp [hmem]
    · refine ⟨h (gitObjAsBytes o) :: st, ?_, ?_, ?_, fun hc => absurd hc hmem⟩
      · unfold write_object
        simp [hmem]
      · unfold write_object
        simp
      · intro _
        rw [List.count_cons_self, List.count_eq_zero.mpr hmem]

theorem claim_C4_write_object_witness :
    (List.replicate 20 0, (none : Option (List (List Nat)))).1 =
      constHash (gitObjAsBytes (GitObj.blob exampleBlob)) ∧
    gitObjAsBytes (GitObj.blob exampleBlob) =
      blobTag ++ [32] ++ decRepr exampleBlob.len ++ [0] ++ exampleBlob.contents :=
  ⟨claim_C4_write_object.1 constHash true (GitObj.blob exampleBlob) none _ rfl,
   claim_C4_write_object.2.1 exampleBlob⟩

/-- C6: for every name length n ≥ 1 the serializer's padding is
`8 - ((62 + n) mod 8)`, always between 1 and 8, making the total entry
length `62 + n + pad` a multiple of 8, with the parser consuming exactly
the serialized entry (padding included) before the next entry starts. -/
theorem claim_C6_padding (n : Nat) (_hn : 1 ≤ n) :
    indexPadLen n = 8 - (62 + n) % 8 ∧
    1 ≤ indexPadLen n ∧ indexPadLen n ≤ 8 ∧
    (62 + n + indexPadLen n) % 8 = 0 ∧
    (∀ e : IndexEntry, WfEntry e → e.name.length = n →
      (IndexEntry.as_bytes e).length = 62 + n + indexPadLen n ∧
      (∀ rest, parse_git_index_entry (IndexEntry.as_bytes e ++ rest) = some (e, rest))) := by
  refine ⟨?_, ?_, ?_, ?_, ?_⟩
  · unfold indexPadLen; omega
  · unfold indexPadLen; omega
  · unfold indexPadLen; omega
  · unfold indexPadLen; omega
  · intro e hw hlen
    refine ⟨?_, fun rest => parse_git_index_entry_chunk hw rest⟩
    have hsha : e.sha.length = 20 := hw.2.2.2.2.2.2.2.2.2.2.1
    unfold IndexEntry.as_bytes toBE32 toBE16
    simp [hsha, hlen]
    omega

theorem claim_C6_padding_witness :
    indexPadLen 1 = 8 - (62 + 1) % 8 ∧
    (IndexEntry.as_bytes exampleEntry).length = 62 + 1 + indexPadLen 1 := by
  have h := claim_C6_padding 1 (by decide)
  exact ⟨h.1, (h.2.2.2.2 exampleEntry (by decide) (by decide)).1⟩

theorem parse_git_index_shape (a b c d : Nat) (rest : List Nat) :
    parse_git_index (dircTag ++ [0, 0, 0, 2] ++ (a :: b :: c :: d :: rest)) =
      .ok { entries := (many0P parse_git_index_entry rest).1 } := by
  unfold parse_git_index
  rw [show dircTag ++ [0, 0, 0, 2] ++ (a :: b :: c :: d :: rest) =
    dircTag ++ ([0, 0, 0, 2] ++ (a :: b :: c :: d :: rest)) by simp]
  rw [@takeWhile1P_append_stop (fun b => b == 68 || b == 73 || b == 82 || b == 67) dircTag
    ([0, 0, 0, 2] ++ (a :: b :: c :: d :: rest)) (by decide) (by decide) (by simp [stopsAt])]
  dsimp only
  rw [show takeBE32 ([0, 0, 0, 2] ++ (a :: b :: c :: d :: rest)) =
    some (2, a :: b :: c :: d :: rest) by simp [takeBE32]]
  dsimp only
  rw [if_neg (by simp)]
  rw [show takeBE32 (a :: b :: c :: d :: rest) =
    some (((a * 256 + b) * 256 + c) * 256 + d, rest) from rfl]

/-- C9: `parse_git_index` reads the 4-byte entry-count field and never
uses it — two index images differing only in that field parse to the same
`Index`, and a count disagreeing with the actual number of entries (here 5
versus 0) is silently accepted. -/
theorem claim_C9_count_ignored :
    (∀ (c1 c2 rest : List Nat), c1.length = 4 → c2.length = 4 →
      parse_git_index (dircTag ++ [0, 0, 0, 2] ++ c1 ++ rest) =
        parse_git_index (dircTag ++ [0, 0, 0, 2] ++ c2 ++ rest)) ∧
    parse_git_index (dircTag ++ [0, 0, 0, 2] ++ toBE32 5 ++ List.replicate 20 0) =
      .ok { entries := [] } := by
  constructor
  · intro c1 c2 rest h1 h2
    rcases c1 with _ | ⟨a1, _ | ⟨b1, _ | ⟨d1, _ | ⟨e1, t1⟩⟩⟩⟩ <;> simp at h1
    rcases c2 with _ | ⟨a2, _ | ⟨b2, _ | ⟨d2, _ | ⟨e2, t2⟩⟩⟩⟩ <;> simp at h2
    subst h1
    subst h2
    rw [show dircTag ++ [0, 0, 0, 2] ++ [a1, b1, d1, e1] ++ rest =
      dircTag ++ [0, 0, 0, 2] ++ (a1 :: b1 :: d1 :: e1 :: rest) by simp]
    rw [show dircTag ++ [0, 0, 0, 2] ++ [a2, b2, d2, e2] ++ rest =
      dircTag ++ [0, 0, 0, 2] ++ (a2 :: b2 :: d2 :: e2 :: rest) by simp]
    rw [parse_git_index_shape, parse_git_index_shape]
  · rfl

theorem claim_C9_count_ignored_witness :
    parse_git_index (dircTag ++ [0, 0, 0, 2] ++ toBE32 0 ++ List.replicate 20 0) =
      parse_git_index (dircTag ++ [0, 0, 0, 2] ++ toBE32 7 ++ List.replicate 20 0) :=
  claim_C9_count_ignored.1 (toBE32 0) (toBE32 7) (List.replicate 20 0) rfl rfl

/-! ## Byte-lexicographic comparison facts -/

theorem cmpBytes_eq_iff : ∀ (a b : List Nat), cmpBytes a b = .eq ↔ a = b := by
  intro a
  induction a with
  | nil =>
    intro b
    cases b with
    | nil => simp [cmpBytes]
    | cons y ys => simp [cmpBytes]
  | cons x xs ih =>
    intro b
    cases b with
    | nil => simp [cmpBytes]
    | cons y ys =>
      unfold cmpBytes
      rcases Nat.lt_trichotomy x y with h1 | h1 | h1
      · rw [if_pos h1]
        simp only [List.cons.injEq]
        constructor
        · intro hc; exact absurd hc (by decide)
        · rintro ⟨h2, -⟩; omega
      · subst h1
        rw [if_neg (by omega), if_neg (by omega)]
        rw [ih ys]
        simp
      · rw [if_neg (by omega), if_pos h1]
        simp only [List.cons.injEq]
        constructor
        · intro hc; exact absurd hc (by decide)
        · rintro ⟨h2, -⟩; omega

theorem cmpBytes_refl (a : List Nat) : cmpBytes a a = .eq :=
  (cmpBytes_eq_iff a a).mpr rfl

theorem cmpBytes_gt_iff : ∀ (a b : List Nat), cmpBytes a b = .gt ↔ cmpBytes b a = .lt := by
  intro a
  induction a with
  | nil =>
    intro b
    cases b with
    | nil => simp [cmpBytes]
    | cons y ys => simp [cmpBytes]
  | cons x xs ih =>
    intro b
    cases b with
    | nil => simp [cmpBytes]
    | cons y ys =>
      unfold cmpBytes
      rcases Nat.lt_trichotomy x y with h1 | h1 | h1
      · rw [if_pos h1, if_neg (by omega), if_pos h1]
        simp
      · subst h1
        rw [if_neg (by omega), if_neg (by omega), if_neg (by omega), if_neg (by omega)]
        exact ih ys
      · rw [if_neg (by omega), if_pos h1, if_pos h1]
        simp

theorem cmpBytes_lt_trans : ∀ (a b c : List Nat),
    cmpBytes a b = .lt → cmpBytes b c = .lt → cmpBytes a c = .lt := by
  intro a
  induction a with
  | nil =>
    intro b c hab hbc
    cases b with
    | nil => exact absurd hab (by simp [cmpBytes])
    | cons y ys =>
      cases c with
      | nil => exact absurd hbc (by simp [cmpBytes])
      | cons z zs => simp [cmpBytes]
  | cons x xs ih =>
    intro b c hab hbc
    cases b with
    | nil => exact absurd hab (by simp [cmpBytes])
    | cons y ys =>
      cases c with
      | nil => exact absurd hbc (by simp [cmpBytes])
      | cons z zs =>
        unfold cmpBytes at hab hbc ⊢
        rcases Nat.lt_trichotomy x y with h1 | h1 | h1
        · rcases Nat.lt_trichotomy y z with h2 | h2 | h2
          · rw [if_pos (by omega)]
          · subst h2
            rw [if_pos (by omega)]
          · rw [if_neg (by omega), if_pos h2] at hbc
            exact absurd hbc (by decide)
        · subst h1
          rw [if_neg (by omega), if_neg (by omega)] at hab
          rcases Nat.lt_trichotomy x z with h2 | h2 | h2
          · rw [if_pos h2]
          · subst h2
            rw [if_neg (by omega), if_neg (by omega)] at hbc ⊢
            exact ih ys zs hab hbc
          · rw [if_neg (by omega), if_pos h2] at hbc
            exact absurd hbc (by decide)
        · rw [if_neg (by omega), if_pos h1] at hab
          exact absurd hab (by decide)

/-! ## Binary-search loop specification -/

theorem nameAt_eq {l : List IndexEntry} {j : Nat} (h : j < l.length) :
    nameAt l j = (l.get ⟨j, h⟩).name := by
  simp [nameAt, List.getElem?_eq_getElem h]

theorem nameAt_eq_getElem {l : List IndexEntry} {j : Nat} (h : j < l.length) :
    nameAt l j = (l[j]).name := by
  simp [nameAt, List.getElem?_eq_getElem h]

theorem binSearchLoop_spec (l : List IndexEntry) (key : List Nat)
    (hs : ∀ (i j : Nat), i < j → j < l.length →
      cmpBytes (nameAt l i) (nameAt l j) = .lt) :
    ∀ (fuel left right : Nat), left ≤ right → right ≤ l.length → right - left ≤ fuel →
      (∀ j, j < left → cmpBytes (nameAt l j) key = .lt) →
      (∀ j, right ≤ j → j < l.length → cmpBytes (nameAt l j) key = .gt) →
      (match binSearchLoop l key fuel left right with
       | .inl pos => pos < l.length ∧ cmpBytes (nameAt l pos) key = .eq
       | .inr pos => pos ≤ l.length ∧
           (∀ j, j < pos → cmpBytes (nameAt l j) key = .lt) ∧
           (∀ j, pos ≤ j → j < l.length → cmpBytes (nameAt l j) key = .gt)) := by
  intro fuel
  induction fuel with
  | zero =>
    intro left right hlr hrl hf hpre hpost
    have heq : left = right := by omega
    subst heq
    unfold binSearchLoop
    exact ⟨by omega, hpre, fun j hj hjl => hpost j (by omega) hjl⟩
  | succ f ih =>
    intro left right hlr hrl hf hpre hpost
    unfold binSearchLoop
    by_cases hcond : left < right
    · rw [if_pos hcond]
      have hmid2 : left + (right - left) / 2 < right := by
        have hd : (right - left) / 2 < right - left :=
          Nat.div_lt_self (by omega) (by norm_num)
        omega
      cases hc : cmpBytes (nameAt l (left + (right - left) / 2)) key with
      | lt =>
        exact ih (left + (right - left) / 2 + 1) right (by omega) hrl (by omega)
          (fun j hj => by
            by_cases hjm : j < left + (right - left) / 2
            · exact cmpBytes_lt_trans _ _ _ (hs j _ hjm (by omega)) hc
            · have hje : j = left + (right - left) / 2 := by omega
              rw [hje]
              exact hc)
          hpost
      | gt =>
        exact ih left (left + (right - left) / 2) (by omega) (by omega) (by omega)
          hpre
          (fun j hj hjl => by
            by_cases hjm : j = left + (right - left) / 2
            · rw [hjm]
              exact hc
            · have hmj : left + (right - left) / 2 < j := by omega
              have h1 : cmpBytes key (nameAt l (left + (right - left) / 2)) = .lt :=
                (cmpBytes_gt_iff _ _).mp hc
              have h2 := hs _ j hmj hjl
              exact (cmpBytes_gt_iff _ _).mpr (cmpBytes_lt_trans _ _ _ h1 h2))
      | eq =>
        exact ⟨by omega, hc⟩
    · rw [if_neg hcond]
      exact ⟨by omega, hpre, fun j hj hjl => hpost j (by omega) hjl⟩

theorem binary_search_spec (l : List IndexEntry) (key : List Nat)
    (hsorted : List.Pairwise (fun a b => cmpBytes a.name b.name = .lt) l) :
    (match binary_search l key with
     | .inl pos => pos < l.length ∧ cmpBytes (nameAt l pos) key = .eq
     | .inr pos => pos ≤ l.length ∧
         (∀ j, j < pos → cmpBytes (nameAt l j) key = .lt) ∧
         (∀ j, pos ≤ j → j < l.length → cmpBytes (nameAt l j) key = .gt)) := by
  have hs : ∀ (i j : Nat), i < j → j < l.length →
      cmpBytes (nameAt l i) (nameAt l j) = .lt := by
    intro i j hij hj
    have hi : i < l.length := lt_trans hij hj
    rw [nameAt_eq hi, nameAt_eq hj]
    exact List.pairwise_iff_get.mp hsorted ⟨i, hi⟩ ⟨j, hj⟩ hij
  exact binSearchLoop_spec l key hs (l.length + 1) 0 l.length (by omega) (le_refl _)
    (by omega) (fun j hj => absurd hj (by omega)) (fun j hj hjl => absurd hjl (by omega))

/-! ## Splicing lemmas for `Vec::remove` / `Vec::insert` -/

theorem insertAt_eq : ∀ (n : Nat) (e : IndexEntry) (l : List IndexEntry), n ≤ l.length →
    insertAt n e l = l.take n ++ e :: l.drop n := by
  intro n
  induction n with
  | zero => intro e l h; simp [insertAt]
  | succ m ih =>
    intro e l h
    cases l with
    | nil => simp at h
    | cons a t =>
      unfold insertAt
      rw [ih e t (by simpa using h)]
      simp

theorem removeAt_insertAt_eq : ∀ (n : Nat) (e : IndexEntry) (l : List IndexEntry),
    n < l.length → insertAt n e (removeAt n l) = l.take n ++ e :: l.drop (n + 1) := by
  intro n
  induction n with
  | zero =>
    intro e l h
    cases l with
    | nil => simp at h
    | cons a t => simp [removeAt, insertAt]
  | succ m ih =>
    intro e l h
    cases l with
    | nil => simp at h
    | cons a t =>
      unfold removeAt insertAt
      rw [ih e t (by simpa using h)]
      simp

theorem pairwise_splice {R : IndexEntry → IndexEntry → Prop}
    (l : List IndexEntry) (e : IndexEntry) (pos d : Nat)
    (hpd : pos ≤ d) (hdl : d ≤ l.length)
    (hl : List.Pairwise R l)
    (hbefore : ∀ (j : Nat) (hj : j < l.length), j < pos → R (l.get ⟨j, hj⟩) e)
    (hafter : ∀ (j : Nat) (hj : j < l.length), d ≤ j → R e (l.get ⟨j, hj⟩)) :
    List.Pairwise R (l.take pos ++ e :: l.drop d) := by
  rw [List.pairwise_append]
  refine ⟨List.Pairwise.sublist (List.take_sublist _ _) hl, ?_, ?_⟩
  · rw [List.pairwise_cons]
    refine ⟨?_, List.Pairwise.sublist (List.drop_sublist _ _) hl⟩
    intro b hb
    rcases List.mem_iff_getElem.mp hb with ⟨k, hk, hbk⟩
    have hdk : d + k < l.length := by
      have hk' := hk
      rw [List.length_drop] at hk'
      omega
    rw [List.getElem_drop] at hbk
    rw [← hbk]
    have := hafter (d + k) hdk (by omega)
    rwa [List.get_eq_getElem] at this
  · intro a ha b hb
    rcases List.mem_iff_getElem.mp ha with ⟨k, hk, hak⟩
    have hkpos : k < pos := by
      have hk' := hk
      rw [List.length_take] at hk'
      omega
    have hkl : k < l.length := by
      have hk' := hk
      rw [List.length_take] at hk'
      omega
    rw [List.getElem_take] at hak
    rcases List.mem_cons.mp hb with rfl | hbd
    · rw [← hak]
      have := hbefore k hkl hkpos
      rwa [List.get_eq_getElem] at this
    · rcases List.mem_iff_getElem.mp hbd with ⟨k2, hk2, hbk2⟩
      have hk2l : d + k2 < l.length := by
        have hk2' := hk2
        rw [List.length_drop] at hk2'
        omega
      rw [List.getElem_drop] at hbk2
      rw [← hak, ← hbk2]
      exact List.pairwise_iff_getElem.mp hl k (d + k2) hkl hk2l (by omega)

/-- Concrete entry with name `"c"`, used alongside `exampleEntry` (name `"a"`). -/
def entryC : IndexEntry := { exampleEntry with name := [99] }

/-- A distinct entry carrying the same name `"c"` (differing `size`),
re-added over `entryC`. -/
def entryC7 : IndexEntry := { exampleEntry with name := [99], size := 7 }

/-- C5: starting from an index whose entry list is strictly sorted by name,
`git_add_entry_to_index` (binary search, then `remove`+`insert` on `Ok(pos)`
or `insert` on `Err(pos)`) keeps the list sorted; re-adding an existing name
keeps the entry count, keeps the name sequence, and fully replaces the old
entry (the new entry is the only one left carrying that name); adding a
fresh name grows the count by one and the new entry is present. -/
theorem claim_C5_add_entry (idx : List IndexEntry) (e : IndexEntry)
    (hsorted : List.Pairwise (fun a b => cmpBytes a.name b.name = .lt) idx) :
    List.Pairwise (fun a b => cmpBytes a.name b.name = .lt)
      (git_add_entry_to_index idx e) ∧
    (e.name ∈ idx.map IndexEntry.name →
      (git_add_entry_to_index idx e).length = idx.length ∧
      (git_add_entry_to_index idx e).map IndexEntry.name = idx.map IndexEntry.name ∧
      (git_add_entry_to_index idx e).filter (fun x => x.name = e.name) = [e]) ∧
    (e.name ∉ idx.map IndexEntry.name →
      (git_add_entry_to_index idx e).length = idx.length + 1 ∧
      e ∈ git_add_entry_to_index idx e) := by
  have hs : ∀ (i j : Nat), i < j → j < idx.length →
      cmpBytes (nameAt idx i) (nameAt idx j) = .lt := by
    intro i j hij hj
    have hi : i < idx.length := lt_trans hij hj
    rw [nameAt_eq hi, nameAt_eq hj]
    exact List.pairwise_iff_get.mp hsorted ⟨i, hi⟩ ⟨j, hj⟩ hij
  have hspec := binary_search_spec idx e.name hsorted
  unfold git_add_entry_to_index
  cases hbs : binary_search idx e.name with
  | inl pos =>
    rw [hbs] at hspec
    obtain ⟨hlt, heqc⟩ := hspec
    have hname : nameAt idx pos = e.name := (cmpBytes_eq_iff _ _).mp heqc
    have hpn : (idx.get ⟨pos, hlt⟩).name = e.name := by
      rw [← nameAt_eq hlt]
      exact hname
    dsimp only
    rw [removeAt_insertAt_eq pos e idx hlt]
    have hbef : ∀ (j : Nat) (hj : j < idx.length), j < pos →
        cmpBytes (idx.get ⟨j, hj⟩).name e.name = .lt := by
      intro j hj hjp
      have := hs j pos hjp hlt
      rw [hname, nameAt_eq hj] at this
      exact this
    have haft : ∀ (j : Nat) (hj : j < idx.length), pos + 1 ≤ j →
        cmpBytes e.name (idx.get ⟨j, hj⟩).name = .lt := by
      intro j hj hpj
      have := hs pos j (by omega) hj
      rw [hname, nameAt_eq hj] at this
      exact this
    refine ⟨?_, ?_, ?_⟩
    · exact pairwise_splice idx e pos (pos + 1) (by omega) (by omega) hsorted hbef haft
    · intro _
      refine ⟨?_, ?_, ?_⟩
      · simp only [List.length_append, List.length_cons, List.length_take,
          List.length_drop]
        omega
      · conv_rhs => rw [← List.take_append_drop pos idx]
        rw [List.drop_eq_getElem_cons hlt]
        rw [List.map_append, List.map_append, List.map_cons, List.map_cons]
        rw [← nameAt_eq_getElem hlt, hname]
      · have hne1 : ∀ a ∈ idx.take pos, decide (a.name = e.name) = false := by
          intro a ha
          rcases List.mem_iff_getElem.mp ha with ⟨k, hk, hak⟩
          have hkp : k < pos := by
            have hk' := hk
            rw [List.length_take] at hk'
            omega
          have hkl : k < idx.length := by omega
          rw [List.getElem_take] at hak
          have hcl : cmpBytes a.name e.name = .lt := by
            have hg := hbef k hkl hkp
            rw [List.get_eq_getElem, hak] at hg
            exact hg
          apply decide_eq_false
          intro hcon
          rw [hcon, cmpBytes_refl] at hcl
          exact absurd hcl (by decide)
        have hne2 : ∀ a ∈ idx.drop (pos + 1), decide (a.name = e.name) = false := by
          intro a ha
          rcases List.mem_iff_getElem.mp ha with ⟨k, hk, hak⟩
          have hkl : pos + 1 + k < idx.length := by
            have hk' := hk
            rw [List.length_drop] at hk'
            omega
          rw [List.getElem_drop] at hak
          have hcl : cmpBytes e.name a.name = .lt := by
            have hg := haft (pos + 1 + k) hkl (by omega)
            rw [List.get_eq_getElem, hak] at hg
            exact hg
          apply decide_eq_false
          intro hcon
          rw [← hcon, cmpBytes_refl] at hcl
          exact absurd hcl (by decide)
        have h1 : (idx.take pos).filter (fun x => x.name = e.name) = [] := by
          rw [List.filter_eq_nil_iff]
          intro a ha
          rw [hne1 a ha]
          exact Bool.false_ne_true
        have h2 : (idx.drop (pos + 1)).filter (fun x => x.name = e.name) = [] := by
          rw [List.filter_eq_nil_iff]
          intro a ha
          rw [hne2 a ha]
          exact Bool.false_ne_true
        rw [List.filter_append, h1, List.filter_cons]
        simp [h2]
    · intro hno
      exfalso
      apply hno
      exact List.mem_map.mpr ⟨idx.get ⟨pos, hlt⟩, List.get_mem idx pos hlt, hpn⟩
  | inr pos =>
    rw [hbs] at hspec
    obtain ⟨hle, hall1, hall2⟩ := hspec
    dsimp only
    rw [insertAt_eq pos e idx hle]
    have hbef : ∀ (j : Nat) (hj : j < idx.length), j < pos →
        cmpBytes (idx.get ⟨j, hj⟩).name e.name = .lt := by
      intro j hj hjp
      have := hall1 j hjp
      rw [nameAt_eq hj] at this
      exact this
    have haft : ∀ (j : Nat) (hj : j < idx.length), pos ≤ j →
        cmpBytes e.name (idx.get ⟨j, hj⟩).name = .lt := by
      intro j hj hpj
      have := hall2 j hpj hj
      rw [nameAt_eq hj] at this
      exact (cmpBytes_gt_iff _ _).mp this
    refine ⟨?_, ?_, ?_⟩
    · exact pairwise_splice idx e pos pos (le_refl _) hle hsorted hbef haft
    · intro hmem
      exfalso
      rcases List.mem_map.mp hmem with ⟨a, hamem, haname⟩
      rcases List.mem_iff_getElem.mp hamem with ⟨k, hk, hak⟩
      by_cases hkp : k < pos
      · have hcl := hbef k hk hkp
        rw [List.get_eq_getElem, hak, haname, cmpBytes_refl] at hcl
        exact absurd hcl (by decide)
      · have hcl := haft k hk (by omega)
        rw [List.get_eq_getElem, hak, haname, cmpBytes_refl] at hcl
        exact absurd hcl (by decide)
    · intro _
      refine ⟨?_, ?_⟩
      · simp only [List.length_append, List.length_cons, List.length_take,
          List.length_drop]
        omega
      · simp

/-- Witness for C5 at a concrete sorted two-entry index: re-adding name
`"c"` via `entryC7` keeps the list sorted, keeps the count at 2, and
leaves `entryC7` as the only entry named `"c"`. -/
theorem claim_C5_add_entry_witness :
    List.Pairwise (fun a b => cmpBytes a.name b.name = Ordering.lt)
      (git_add_entry_to_index [exampleEntry, entryC] entryC7) ∧
    (git_add_entry_to_index [exampleEntry, entryC] entryC7).length = 2 ∧
    (git_add_entry_to_index [exampleEntry, entryC] entryC7).filter
      (fun x => x.name = entryC7.name) = [entryC7] := by
  have h := claim_C5_add_entry [exampleEntry, entryC] entryC7 (by decide)
  have hmem : entryC7.name ∈ ([exampleEntry, entryC].map IndexEntry.name) := by decide
  exact ⟨h.1, (h.2.1 hmem).1, (h.2.1 hmem).2.2⟩

/-! ## Ref-resolution chains (src/cmd_mods/refs.rs) -/

/-- `RefChainTo fs p chain q`: starting at path `p`, each listed body is
the content after the `"ref: "` tag of the current file, and following the
trimmed bodies one by one lands on path `q`. -/
def RefChainTo (fs : FS) : List Nat → List (List Nat) → List Nat → Prop
  | p, [], q => p = q
  | p, body :: rest, q =>
      fsRead fs p = some (refTag ++ body) ∧ RefChainTo fs (trimB body) rest q

theorem resolve_ref_direct (fs : FS) (p d : List Nat) (fuel : Nat)
    (hr : fsRead fs p = some d) (hlen : 5 ≤ d.length) (hne : d.take 5 ≠ refTag) :
    resolve_ref fs (fuel + 1) p = .ok (trimB d) := by
  unfold resolve_ref
  rw [hr]
  dsimp only
  rw [if_neg (by omega), if_neg hne]

theorem resolve_ref_indirect (fs : FS) (p body : List Nat) (fuel : Nat)
    (hr : fsRead fs p = some (refTag ++ body)) :
    resolve_ref fs (fuel + 1) p = resolve_ref fs fuel (trimB body) := by
  have hlen : (refTag ++ body).length = 5 + body.length := by
    simp [refTag]
    omega
  have htake : (refTag ++ body).take 5 = refTag := by simp [refTag]
  have hdrop : (refTag ++ body).drop 5 = body := by simp [refTag]
  conv_lhs => unfold resolve_ref
  rw [hr]
  dsimp only
  rw [if_neg (by omega), if_pos htake, hdrop]

theorem resolve_ref_chain (fs : FS) :
    ∀ (chain : List (List Nat)) (p q : List Nat) (fuel : Nat),
      RefChainTo fs p chain q → chain.length < fuel →
      resolve_ref fs fuel p = resolve_ref fs (fuel - chain.length) q := by
  intro chain
  induction chain with
  | nil =>
    intro p q fuel hc hf
    have hpq : p = q := hc
    subst hpq
    simp
  | cons body rest ih =>
    intro p q fuel hc hf
    obtain ⟨hr, hrest⟩ := hc
    cases fuel with
    | zero => exact absurd hf (by omega)
    | succ f =>
      rw [resolve_ref_indirect fs p body f hr]
      rw [ih (trimB body) q f hrest (by simp at hf; omega)]
      congr 1
      simp only [List.length_cons]
      omega

/-- C7: a ref file holding a bare hash resolves to its trimmed content
(so an already-trimmed 40-character hash resolves to itself), and for any
acyclic indirection chain (each file `"ref: <next>"`, the last file a
direct hash), resolving the head of the chain yields the same hash as
resolving the final direct ref. -/
theorem claim_C7_ref_resolution :
    (∀ (fs : FS) (p d : List Nat) (fuel : Nat),
        fsRead fs p = some d → 5 ≤ d.length → d.take 5 ≠ refTag →
        resolve_ref fs (fuel + 1) p = .ok (trimB d) ∧
        (trimB d = d → resolve_ref fs (fuel + 1) p = .ok d)) ∧
    (∀ (fs : FS) (chain : List (List Nat)) (p q d : List Nat) (fuel : Nat),
        RefChainTo fs p chain q →
        fsRead fs q = some d → 5 ≤ d.length → d.take 5 ≠ refTag →
        chain.length < fuel →
        resolve_ref fs fuel p = .ok (trimB d) ∧
        resolve_ref fs fuel q = .ok (trimB d)) := by
  constructor
  · intro fs p d fuel hr hlen hne
    refine ⟨resolve_ref_direct fs p d fuel hr hlen hne, ?_⟩
    intro htr
    rw [resolve_ref_direct fs p d fuel hr hlen hne, htr]
  · intro fs chain p q d fuel hc hr hlen hne hf
    have hstep := resolve_ref_chain fs chain p q fuel hc hf
    have hm1 : fuel - chain.length = (fuel - chain.length - 1) + 1 := by omega
    have hm2 : fuel = (fuel - 1) + 1 := by omega
    constructor
    · rw [hstep, hm1, resolve_ref_direct fs q d (fuel - chain.length - 1) hr hlen hne]
    · rw [hm2, resolve_ref_direct fs q d (fuel - 1) hr hlen hne]

/-- Two-file store: `HEAD` holds `"ref: main\n"`, `main` holds the direct
content `"hhhhh"`. -/
def exFS7 : FS :=
  [(headPath, refTag ++ [109, 97, 105, 110, 10]),
   ([109, 97, 105, 110], [104, 104, 104, 104, 104])]

/-- Witness for C7 on `exFS7`: the depth-1 chain from `HEAD` and the direct
ref `main` resolve to the same hash, which is the file's own (trimmed)
content. -/
theorem claim_C7_ref_resolution_witness :
    resolve_ref exFS7 3 headPath = .ok [104, 104, 104, 104, 104] ∧
    resolve_ref exFS7 3 [109, 97, 105, 110] = .ok [104, 104, 104, 104, 104] ∧
    resolve_ref exFS7 1 [109, 97, 105, 110] = .ok [104, 104, 104, 104, 104] := by
  have h2 := claim_C7_ref_resolution.2 exFS7 [[109, 97, 105, 110, 10]] headPath
    [109, 97, 105, 110] [104, 104, 104, 104, 104] 3 ⟨rfl, rfl⟩ rfl (by decide)
    (by decide) (by decide)
  have h1 := (claim_C7_ref_resolution.1 exFS7 [109, 97, 105, 110]
    [104, 104, 104, 104, 104] 0 rfl (by decide) (by decide)).2 rfl
  exact ⟨h2.1, h2.2, h1⟩

/-! ## Status when no commit exists (src/cmd_mods/status.rs, src/utils.rs) -/

theorem parse_git_head_ok (headRef : List Nat) (hne : headRef ≠ [])
    (hno10 : ∀ b ∈ headRef, b ≠ 10)
    (hstart : ∀ b, headRef.head? = some b → b ≠ 32 ∧ b ≠ 9) :
    parse_git_head (refTag ++ headRef ++ [10]) = .ok headRef := by
  have hassoc : refTag ++ headRef ++ [10] =
      [114, 101, 102, 58] ++ (32 :: (headRef ++ [10])) := by
    simp [refTag]
  have h1 : takeWhile1P (fun b => b != 32)
      ([114, 101, 102, 58] ++ (32 :: (headRef ++ [10]))) =
      some ([114, 101, 102, 58], 32 :: (headRef ++ [10])) :=
    takeWhile1P_append_stop (by decide) (by decide) (by simp [stopsAt])
  have h2 : takeWhile1P (fun b => b == 32 || b == 9) (32 :: (headRef ++ [10])) =
      some ([32], headRef ++ [10]) := by
    have := @takeWhile1P_append_stop (fun b => b == 32 || b == 9) [32]
      (headRef ++ [10]) (by decide) (by decide)
      (stopsAt_space_append hne hstart [10])
    simpa using this
  have h3 : takeWhile1P (fun b => b != 10) (headRef ++ [10]) =
      some (headRef, [10]) :=
    takeWhile1P_append_stop
      (fun x hx => by simpa using hno10 x hx) hne (by simp [stopsAt])
  unfold parse_git_head
  rw [hassoc, h1]
  dsimp only
  rw [h2]
  dsimp only
  rw [h3]

theorem filter_not_contained_nil :
    ∀ (l : List (List Nat × List Nat)),
      l.filter (fun pr => !(List.contains [] pr)) = l := by
  intro l
  induction l with
  | nil => rfl
  | cons a t ih => simp [List.filter, ih, List.contains]

/-- C8: when HEAD names a branch ref whose file does not exist,
`git_sha_from_head` reports `GitNoCommitsExistYet`; `staged_but_not_commited`
treats that error as the empty committed set instead of failing, so it
returns an `Ok` report holding one "modified:" line for every entry of the
index. -/
theorem claim_C8_status_no_commits
    (cpo : List Nat → Except GitError (List (List Nat × List Nat)))
    (fs : FS) (headRef : List Nat) (index : Index)
    (hhead : fsRead fs headPath = some (refTag ++ headRef ++ [10]))
    (hne : headRef ≠ [])
    (hno10 : ∀ b ∈ headRef, b ≠ 10)
    (hstart : ∀ b, headRef.head? = some b → b ≠ 32 ∧ b ≠ 9)
    (hmiss : fsRead fs headRef = none) :
    git_sha_from_head fs = .error .noCommitsExistYet ∧
    staged_but_not_commited cpo fs index =
      .ok (index.entries.map (fun e => modifiedLine e.name)) ∧
    ∀ e ∈ index.entries,
      modifiedLine e.name ∈ index.entries.map (fun x => modifiedLine x.name) := by
  have hsha : git_sha_from_head fs = .error .noCommitsExistYet := by
    unfold git_sha_from_head
    rw [hhead]
    dsimp only
    rw [parse_git_head_ok headRef hne hno10 hstart]
    dsimp only
    rw [hmiss]
  refine ⟨hsha, ?_, ?_⟩
  · unfold staged_but_not_commited
    rw [hsha]
    dsimp only
    rw [if_pos rfl]
    unfold stagedDiff index_file_sha_pairs
    rw [filter_not_contained_nil, List.map_map]
    rfl
  · intro e he
    exact List.mem_map.mpr ⟨e, he, rfl⟩

/-- Store for the C8 witness: only `HEAD` exists, naming branch `main`
whose file is absent. -/
def exFS8 : FS := [(headPath, refTag ++ [109, 97, 105, 110] ++ [10])]

/-- Witness for C8 on `exFS8` and the one-entry `exampleIndex`: HEAD
resolution reports "no commits yet" and status still returns an `Ok`
report listing the entry `"a"` as staged. -/
theorem claim_C8_status_no_commits_witness :
    git_sha_from_head exFS8 = .error .noCommitsExistYet ∧
    staged_but_not_commited (fun _ => .ok []) exFS8 exampleIndex =
      .ok [modifiedLine [97]] := by
  have h := claim_C8_status_no_commits (fun _ => .ok []) exFS8 [109, 97, 105, 110]
    exampleIndex rfl (by decide) (by decide)
    (fun b hb => by simp at hb; omega) rfl
  exact ⟨h.1, h.2.1⟩

/-! ## The out-of-range slice in resolve_ref (src/cmd_mods/refs.rs) -/

/-- C10: `resolve_ref` unconditionally slices the first five bytes of the
file it reads, so any reachable ref file shorter than 5 bytes makes it
panic; conversely, when every file of the store is at least 5 bytes long,
no resolution ever panics, whatever path and fuel are used. -/
theorem claim_C10_short_ref_panics :
    (∀ (fs : FS) (p d : List Nat) (fuel : Nat),
        fsRead fs p = some d → d.length < 5 →
        resolve_ref fs (fuel + 1) p = .panicked) ∧
    (∀ (fs : FS), (∀ pr ∈ fs, 5 ≤ pr.2.length) →
        ∀ (fuel : Nat) (p : List Nat), resolve_ref fs fuel p ≠ .panicked) := by
  constructor
  · intro fs p d fuel hr hlen
    unfold resolve_ref
    rw [hr]
    dsimp only
    rw [if_pos hlen]
  · intro fs hall fuel
    induction fuel with
    | zero =>
      intro p
      simp [resolve_ref]
    | succ f ih =>
      intro p
      unfold resolve_ref
      cases hr : fsRead fs p with
      | none => simp
      | some d =>
        have hd : 5 ≤ d.length := by
          unfold fsRead at hr
          rcases Option.map_eq_some'.mp hr with ⟨q, hq, hqd⟩
          have hmem := List.mem_of_find?_eq_some hq
          rw [← hqd]
          exact hall q hmem
        dsimp only
        rw [if_neg (by omega)]
        by_cases ht : d.take 5 = refTag
        · rw [if_pos ht]
          exact ih (trimB (d.drop 5))
        · rw [if_neg ht]
          simp

/-- One-file store whose ref file content `"h\n"` is shorter than 5 bytes. -/
def exFS10 : FS := [([97], [104, 10])]

/-- Witness for C10: resolving the 2-byte file of `exFS10` panics, while
on `exFS7` (all contents at least 5 bytes) resolving `HEAD` does not. -/
theorem claim_C10_short_ref_panics_witness :
    resolve_ref exFS10 1 [97] = .panicked ∧
    resolve_ref exFS7 2 headPath ≠ .panicked := by
  exact ⟨claim_C10_short_ref_panics.1 exFS10 [97] [104, 10] 0 rfl (by decide),
    claim_C10_short_ref_panics.2 exFS7 (by decide) 2 headPath⟩

end RustyGit
